import Mathlib

/-!
Verification of the change-detection engine of the doc-diff-ai repository
(`change_detector.py`, with the annotation-extraction fallback of
`0914_backup/document_parser.py`).

Python strings are modelled as `List Char` (`Str`); Python dicts with string
keys as insertion-ordered association lists with overwrite-on-repeat
semantics; Python scalar values as the inductive `PyVal`.  Machine floats are
modelled as rationals: none of the verified claims exercises float rounding
or representation edge cases, and comments note each place where the
abstraction matters.  The standard-library pieces the source leans on
(`difflib.SequenceMatcher`, `hashlib.md5`, `re.findall` tokenisation,
`re.split` sentence splitting, UTF-8 encoding) are embedded faithfully below.
-/

set_option linter.unusedVariables false
set_option linter.unusedSectionVars false

abbrev Str := List Char

/-- Convert a Lean string literal to the `Str` model. -/
def str (s : String) : Str := s.data

/-- Python slice `l[i:j]` on lists (clamping, empty when `j ≤ i`). -/
def sl {α : Type} (l : List α) (i j : Nat) : List α :=
  (l.drop i).take (j - i)

/-!
## difflib.SequenceMatcher

Embedding of CPython's `difflib.SequenceMatcher(a=a, b=b)` as used by the
source: `isjunk=None` (hence `bjunk` is always empty and the two junk
extension loops of `find_longest_match` never fire; they are omitted) and
`autojunk=True` (popular elements are dropped from `b2j` when `len(b) >= 200`).
The stack-plus-sort of `get_matching_blocks` is rendered as in-order
recursion: the recursion emits blocks with strictly increasing, disjoint
`a`-intervals, so the list is already in the order Python's final `sort()`
produces.
-/

namespace Difflib

variable {α : Type} [DecidableEq α]

/-- Ascending list of the indices at which `x` occurs in `b`
(the entry `b2j[x]` before autojunk filtering). -/
def indicesOf (b : List α) (x : α) : List Nat :=
  (List.range b.length).filter (fun j => decide (b.get? j = some x))

/-- `b2j` lookup with default `[]`, including the autojunk demotion of
popular elements (`n >= 200` and more than `n // 100 + 1` occurrences). -/
def b2j (b : List α) (x : α) : List Nat :=
  if 200 ≤ b.length ∧ b.length / 100 + 1 < (indicesOf b x).length then []
  else indicesOf b x

/-- The running best match `(besti, bestj, bestsize)`. -/
structure Best where
  i : Nat
  j : Nat
  size : Nat
deriving DecidableEq, Repr

/-- Inner loop of `find_longest_match` over `b2j[a[i]]`: entries below `blo`
are skipped, the loop breaks at the first entry `>= bhi`, and each kept entry
`j` records `newj2len[j] = j2len.get(j-1, 0) + 1` (reading the previous
row `j2old`) and updates the best match on strict improvement. -/
def innerJ (i blo bhi : Nat) (j2old : Nat → Nat) :
    List Nat → (Nat → Nat) → Best → ((Nat → Nat) × Best)
  | [], nz, best => (nz, best)
  | j :: js, nz, best =>
    if j < blo then innerJ i blo bhi j2old js nz best
    else if bhi ≤ j then (nz, best)
    else
      let k := (if j = 0 then 0 else j2old (j - 1)) + 1
      let nz' : Nat → Nat := fun j' => if j' = j then k else nz j'
      let best' := if best.size < k then ⟨i + 1 - k, j + 1 - k, k⟩ else best
      innerJ i blo bhi j2old js nz' best'

/-- `b2j.get(a[i], nothing)`. -/
def jsAt (a b : List α) (i : Nat) : List Nat :=
  match a.get? i with
  | some x => b2j b x
  | none => []

/-- Outer loop of `find_longest_match` over `i in range(alo, ahi)`;
each iteration starts a fresh `newj2len` row. -/
def outerI (a b : List α) (blo bhi : Nat) :
    List Nat → (Nat → Nat) → Best → Best
  | [], _, best => best
  | i :: is, j2old, best =>
    let p := innerJ i blo bhi j2old (jsAt a b i) (fun _ => 0) best
    outerI a b blo bhi is p.1 p.2

/-- `a[i] == b[j]`, false when either index is out of range
(never reached out of range by the source's loops). -/
def matchAt (a b : List α) (i j : Nat) : Bool :=
  match a.get? i, b.get? j with
  | some x, some y => decide (x = y)
  | _, _ => false

/-- Backward extension loop of `find_longest_match`
(the non-junk variant; `bjunk` is empty since `isjunk=None`). -/
def extBack (a b : List α) (alo blo : Nat) : Best → Best
  | ⟨i, j, k⟩ =>
    if h : alo < i ∧ blo < j ∧ matchAt a b (i - 1) (j - 1) then
      extBack a b alo blo ⟨i - 1, j - 1, k + 1⟩
    else ⟨i, j, k⟩
termination_by m => m.i
decreasing_by
  obtain ⟨h1, h2, h3⟩ := h
  omega

/-- Forward extension loop of `find_longest_match`. -/
def extFwd (a b : List α) (ahi bhi : Nat) : Best → Best
  | ⟨i, j, k⟩ =>
    if h : i + k < ahi ∧ j + k < bhi ∧ matchAt a b (i + k) (j + k) then
      extFwd a b ahi bhi ⟨i, j, k + 1⟩
    else ⟨i, j, k⟩
termination_by m => ahi - (m.i + m.size)
decreasing_by
  obtain ⟨h1, h2, h3⟩ := h
  omega

/-- `SequenceMatcher.find_longest_match(alo, ahi, blo, bhi)`. -/
def find_longest_match (a b : List α) (alo ahi blo bhi : Nat) : Best :=
  let best := outerI a b blo bhi (List.range' alo (ahi - alo)) (fun _ => 0) ⟨alo, blo, 0⟩
  extFwd a b ahi bhi (extBack a b alo blo best)

/-- Recursive core of `get_matching_blocks`.  The guard `h` records the
bounds that `find_longest_match` always satisfies (proved below); it makes
the recursion well-founded without altering behaviour. -/
def blocksRec (a b : List α) (alo ahi blo bhi : Nat) : List Best :=
  if h : 0 < (find_longest_match a b alo ahi blo bhi).size ∧
      alo ≤ (find_longest_match a b alo ahi blo bhi).i ∧
      (find_longest_match a b alo ahi blo bhi).i
        + (find_longest_match a b alo ahi blo bhi).size ≤ ahi ∧
      blo ≤ (find_longest_match a b alo ahi blo bhi).j ∧
      (find_longest_match a b alo ahi blo bhi).j
        + (find_longest_match a b alo ahi blo bhi).size ≤ bhi then
    (if alo < (find_longest_match a b alo ahi blo bhi).i ∧
        blo < (find_longest_match a b alo ahi blo bhi).j then
      blocksRec a b alo (find_longest_match a b alo ahi blo bhi).i
        blo (find_longest_match a b alo ahi blo bhi).j
     else [])
    ++ find_longest_match a b alo ahi blo bhi
    :: (if (find_longest_match a b alo ahi blo bhi).i
          + (find_longest_match a b alo ahi blo bhi).size < ahi ∧
        (find_longest_match a b alo ahi blo bhi).j
          + (find_longest_match a b alo ahi blo bhi).size < bhi then
      blocksRec a b
        ((find_longest_match a b alo ahi blo bhi).i
          + (find_longest_match a b alo ahi blo bhi).size) ahi
        ((find_longest_match a b alo ahi blo bhi).j
          + (find_longest_match a b alo ahi blo bhi).size) bhi
     else [])
  else []
termination_by (ahi - alo) + (bhi - blo)
decreasing_by
  · omega
  · omega

/-- Adjacent-block merging pass of `get_matching_blocks`
(accumulator starts at `(0, 0, 0)`). -/
def mergeAdj : Best → List Best → List Best
  | acc, [] => if acc.size ≠ 0 then [acc] else []
  | acc, m :: ms =>
    if acc.i + acc.size = m.i ∧ acc.j + acc.size = m.j then
      mergeAdj ⟨acc.i, acc.j, acc.size + m.size⟩ ms
    else
      (if acc.size ≠ 0 then [acc] else []) ++ mergeAdj m ms

/-- `SequenceMatcher.get_matching_blocks()`, terminal `(la, lb, 0)` included. -/
def get_matching_blocks (a b : List α) : List Best :=
  mergeAdj ⟨0, 0, 0⟩ (blocksRec a b 0 a.length 0 b.length) ++ [⟨a.length, b.length, 0⟩]

inductive Tag
  | equal
  | insert
  | delete
  | replace
deriving DecidableEq, Repr

structure Op where
  tag : Tag
  a1 : Nat
  a2 : Nat
  b1 : Nat
  b2 : Nat
deriving DecidableEq, Repr

/-- Opcode assembly loop of `get_opcodes`. -/
def opcodesAux : Nat → Nat → List Best → List Op
  | _, _, [] => []
  | i, j, m :: ms =>
    (if i < m.i ∧ j < m.j then [⟨.replace, i, m.i, j, m.j⟩]
     else if i < m.i then [⟨.delete, i, m.i, j, m.j⟩]
     else if j < m.j then [⟨.insert, i, m.i, j, m.j⟩]
     else [])
    ++ (if 0 < m.size then [⟨.equal, m.i, m.i + m.size, m.j, m.j + m.size⟩] else [])
    ++ opcodesAux (m.i + m.size) (m.j + m.size) ms

/-- `SequenceMatcher.get_opcodes()`. -/
def get_opcodes (a b : List α) : List Op :=
  opcodesAux 0 0 (get_matching_blocks a b)

end Difflib

/-!
## Tokeniser, diff markup, sentence splitter

`_tokenize_keep_spaces` is `re.findall(r'\w+|[^\w\s]+|\s+', s)`: every
character falls in exactly one of the three classes, so the match list is the
partition of `s` into maximal runs of same-class characters.  Python's `\w`
is Unicode-aware; the embedding uses the ASCII approximation
`isAlphanum || '_'` — the class function is irrelevant to every property
proved below (the round-trip holds for any class assignment).
-/

inductive CharClass
  | word
  | punct
  | space
deriving DecidableEq, Repr

def charClass (c : Char) : CharClass :=
  if c.isAlphanum ∨ c = '_' then .word
  else if c.isWhitespace then .space
  else .punct

/-- Partition a list into maximal runs of adjacent elements related by `R`. -/
def runsBy {α : Type} (R : α → α → Bool) : List α → List (List α)
  | [] => []
  | a :: rest =>
    match runsBy R rest with
    | [] => [[a]]
    | [] :: gs => [a] :: gs
    | (b :: g) :: gs => if R a b then (a :: b :: g) :: gs else [a] :: (b :: g) :: gs

/-- `_tokenize_keep_spaces`. -/
def tokenize_keep_spaces (s : Str) : List Str :=
  runsBy (fun c d => decide (charClass c = charClass d)) s

/-- `html.escape` (default `quote=True`): also escapes the two quote
characters; the single quote is written via its code point 39. -/
def htmlEscapeChar (c : Char) : Str :=
  if c = '&' then str "&amp;"
  else if c = '<' then str "&lt;"
  else if c = '>' then str "&gt;"
  else if c = '"' then str "&quot;"
  else if c = Char.ofNat 39 then str "&#x27;"
  else [c]

def htmlEscape (t : Str) : Str := t.flatMap htmlEscapeChar

/-- Python `t.strip()`. -/
def pyStrip (t : Str) : Str :=
  ((t.dropWhile Char.isWhitespace).reverse.dropWhile Char.isWhitespace).reverse

/-- Python `t.isspace()`. -/
def pyIsSpace (t : Str) : Bool :=
  decide (t ≠ []) && t.all Char.isWhitespace

/-- The filter `t.strip() and not t.isspace()` applied to kept diff terms. -/
def keepTok (t : Str) : Bool :=
  decide (pyStrip t ≠ []) && ! pyIsSpace t

/-- `_word_diff_html`: returns `(pieces, added, deleted)`. -/
def word_diff_html (old new : Str) : Str × List Str × List Str :=
  let a := tokenize_keep_spaces old
  let b := tokenize_keep_spaces new
  let ops := Difflib.get_opcodes a b
  let pieces := ops.flatMap fun o =>
    match o.tag with
    | .equal => (sl a o.a1 o.a2).flatMap htmlEscape
    | .insert =>
        str "<ins class=\"diff-add\">"
          ++ (sl b o.b1 o.b2).flatMap htmlEscape ++ str "</ins>"
    | .delete =>
        str "<del class=\"diff-del\">"
          ++ (sl a o.a1 o.a2).flatMap htmlEscape ++ str "</del>"
    | .replace =>
        str "<del class=\"diff-del\">"
          ++ (sl a o.a1 o.a2).flatMap htmlEscape
          ++ str "</del><ins class=\"diff-add\">"
          ++ (sl b o.b1 o.b2).flatMap htmlEscape ++ str "</ins>"
  let added := ops.flatMap fun o =>
    match o.tag with
    | .insert => (sl b o.b1 o.b2).filter keepTok
    | .replace => (sl b o.b1 o.b2).filter keepTok
    | _ => []
  let deleted := ops.flatMap fun o =>
    match o.tag with
    | .delete => (sl a o.a1 o.a2).filter keepTok
    | .replace => (sl a o.a1 o.a2).filter keepTok
    | _ => []
  (pieces, added, deleted)

/-- Scanner state for `_split_sentences`'s regex
`re.split(r'(?<=[\.\!\?])\s+|\n+', s)`: either scanning fragment text
(tracking whether the previous character was `.`, `!` or `?`), or inside a
greedy `\s+` delimiter entered after sentence punctuation, or inside a
`\n+` delimiter. -/
inductive SplitMode
  | normal (prevPunct : Bool)
  | skipSpace
  | skipNewline
deriving DecidableEq, Repr

def sentPunct (c : Char) : Bool :=
  decide (c = '.') || decide (c = '!') || decide (c = '?')

def splitGo : SplitMode → Str → Str → List Str
  | _, cur, [] => [cur]
  | .normal prevPunct, cur, c :: rest =>
    if prevPunct ∧ c.isWhitespace then cur :: splitGo .skipSpace [] rest
    else if c = '\n' then cur :: splitGo .skipNewline [] rest
    else splitGo (.normal (sentPunct c)) (cur ++ [c]) rest
  | .skipSpace, cur, c :: rest =>
    if c.isWhitespace then splitGo .skipSpace cur rest
    else splitGo (.normal (sentPunct c)) (cur ++ [c]) rest
  | .skipNewline, cur, c :: rest =>
    if c = '\n' then splitGo .skipNewline cur rest
    else splitGo (.normal (sentPunct c)) (cur ++ [c]) rest

/-- `_split_sentences` (split plus truthiness filter). -/
def split_sentences (s : Str) : List Str :=
  (splitGo (.normal false) [] s).filter (fun p => decide (p ≠ []))

/-!
## hashlib.md5 and UTF-8

A direct embedding of MD5 over byte lists (`Nat` below 256), with 32-bit
words as `Nat` reduced mod `2 ^ 32`, used by both fallback-ID schemes.
-/

namespace MD5

/-- Left-rotation of a 32-bit word (input assumed `< 2 ^ 32`). -/
def rotl32 (x s : Nat) : Nat :=
  (x % 2 ^ (32 - s)) * 2 ^ s + x / 2 ^ (32 - s)

def kConsts : List Nat :=
  [0xd76aa478, 0xe8c7b756, 0x242070db, 0xc1bdceee,
   0xf57c0faf, 0x4787c62a, 0xa8304613, 0xfd469501,
   0x698098d8, 0x8b44f7af, 0xffff5bb1, 0x895cd7be,
   0x6b901122, 0xfd987193, 0xa679438e, 0x49b40821,
   0xf61e2562, 0xc040b340, 0x265e5a51, 0xe9b6c7aa,
   0xd62f105d, 0x02441453, 0xd8a1e681, 0xe7d3fbc8,
   0x21e1cde6, 0xc33707d6, 0xf4d50d87, 0x455a14ed,
   0xa9e3e905, 0xfcefa3f8, 0x676f02d9, 0x8d2a4c8a,
   0xfffa3942, 0x8771f681, 0x6d9d6122, 0xfde5380c,
   0xa4beea44, 0x4bdecfa9, 0xf6bb4b60, 0xbebfbc70,
   0x289b7ec6, 0xeaa127fa, 0xd4ef3085, 0x04881d05,
   0xd9d4d039, 0xe6db99e5, 0x1fa27cf8, 0xc4ac5665,
   0xf4292244, 0x432aff97, 0xab9423a7, 0xfc93a039,
   0x655b59c3, 0x8f0ccc92, 0xffeff47d, 0x85845dd1,
   0x6fa87e4f, 0xfe2ce6e0, 0xa3014314, 0x4e0811a1,
   0xf7537e82, 0xbd3af235, 0x2ad7d2bb, 0xeb86d391]

def sConsts : List Nat :=
  [7, 12, 17, 22, 7, 12, 17, 22, 7, 12, 17, 22, 7, 12, 17, 22,
   5, 9, 14, 20, 5, 9, 14, 20, 5, 9, 14, 20, 5, 9, 14, 20,
   4, 11, 16, 23, 4, 11, 16, 23, 4, 11, 16, 23, 4, 11, 16, 23,
   6, 10, 15, 21, 6, 10, 15, 21, 6, 10, 15, 21, 6, 10, 15, 21]

def mask32 : Nat := 0xffffffff

/-- One of the 64 round steps on state `(A, B, C, D)`. -/
def mdStep (M : Nat → Nat) (st : Nat × Nat × Nat × Nat) (idx : Nat) :
    Nat × Nat × Nat × Nat :=
  let A := st.1
  let B := st.2.1
  let C := st.2.2.1
  let D := st.2.2.2
  let fg : Nat × Nat :=
    if idx < 16 then ((B &&& C) ||| ((B ^^^ mask32) &&& D), idx)
    else if idx < 32 then ((D &&& B) ||| ((D ^^^ mask32) &&& C), (5 * idx + 1) % 16)
    else if idx < 48 then (B ^^^ C ^^^ D, (3 * idx + 5) % 16)
    else (C ^^^ (B ||| (D ^^^ mask32)), (7 * idx) % 16)
  let f2 := (fg.1 + A + kConsts.getD idx 0 + M fg.2) % 2 ^ 32
  (D, (B + rotl32 f2 (sConsts.getD idx 0)) % 2 ^ 32, B, C)

/-- Little-endian byte rendering of `n` on `count` bytes. -/
def leBytes : Nat → Nat → List Nat
  | _, 0 => []
  | n, c + 1 => (n % 256) :: leBytes (n / 256) c

/-- The 16 little-endian 32-bit words of a 64-byte chunk. -/
def chunkWord (chunk : List Nat) (g : Nat) : Nat :=
  chunk.getD (4 * g) 0 + 256 * chunk.getD (4 * g + 1) 0
    + 65536 * chunk.getD (4 * g + 2) 0 + 16777216 * chunk.getD (4 * g + 3) 0

def processChunk (st : Nat × Nat × Nat × Nat) (chunk : List Nat) :
    Nat × Nat × Nat × Nat :=
  let r := (List.range 64).foldl (mdStep (chunkWord chunk)) st
  ((st.1 + r.1) % 2 ^ 32, (st.2.1 + r.2.1) % 2 ^ 32,
   (st.2.2.1 + r.2.2.1) % 2 ^ 32, (st.2.2.2 + r.2.2.2) % 2 ^ 32)

/-- MD5 padding: `0x80`, zeros to 56 mod 64, then the 64-bit LE bit length. -/
def padded (msg : List Nat) : List Nat :=
  let l := msg.length
  msg ++ 0x80 :: List.replicate ((56 + 64 - ((l + 1) % 64)) % 64) 0
    ++ leBytes ((l * 8) % 2 ^ 64) 8

def chunks64Aux : Nat → List Nat → List (List Nat)
  | _, [] => []
  | 0, _ :: _ => []
  | fuel + 1, x :: xs => (x :: xs).take 64 :: chunks64Aux fuel ((x :: xs).drop 64)

/-- Split a byte string into 64-byte chunks (the fuel, bounded by the
length, makes the recursion structural so the kernel can evaluate it). -/
def chunks64 (l : List Nat) : List (List Nat) :=
  chunks64Aux l.length l

/-- The 16 digest bytes of a byte message. -/
def md5Bytes (msg : List Nat) : List Nat :=
  let st := (chunks64 (padded msg)).foldl processChunk
    (0x67452301, 0xefcdab89, 0x98badcfe, 0x10325476)
  leBytes st.1 4 ++ leBytes st.2.1 4 ++ leBytes st.2.2.1 4 ++ leBytes st.2.2.2 4

def hexChar (n : Nat) : Char :=
  if n < 10 then Char.ofNat (48 + n) else Char.ofNat (87 + n)

/-- `hexdigest()` of a byte message. -/
def md5Hex (msg : List Nat) : Str :=
  (md5Bytes msg).flatMap fun byte => [hexChar (byte / 16), hexChar (byte % 16)]

end MD5

/-- UTF-8 encoding of one code point (`str.encode('utf-8')`). -/
def utf8Char (c : Char) : List Nat :=
  let n := c.toNat
  if n < 0x80 then [n]
  else if n < 0x800 then [0xC0 + n / 64, 0x80 + n % 64]
  else if n < 0x10000 then
    [0xE0 + n / 4096, 0x80 + (n / 64) % 64, 0x80 + n % 64]
  else
    [0xF0 + n / 262144, 0x80 + (n / 4096) % 64, 0x80 + (n / 64) % 64, 0x80 + n % 64]

def utf8 (s : Str) : List Nat := s.flatMap utf8Char

/-!
## Python scalar values

`PyVal` models the scalars stored in the normalized-document dictionaries
(`None`, `str`, `int`, `float`, `bool`); a missing optional key is modelled
as `PyVal.none`, matching `.get`'s default.  `pyEq` models Python `==` on
these (numeric cross-type equality including `bool`; `None` equal only to
`None`).  Floats are rationals; `pyValStr` renders `str(v)`, with float
rendering exact on the 3-decimal multiples produced by `_norm_floats`
(shortest-round-trip effects of binary floats are not exercised by any
claim below).
-/

inductive PyVal
  | none
  | str (s : Str)
  | int (z : ℤ)
  | float (q : ℚ)
  | bool (b : Bool)
deriving DecidableEq, Repr

def PyVal.numVal : PyVal → Option ℚ
  | .int z => some (z : ℚ)
  | .float q => some q
  | .bool b => some (if b then 1 else 0)
  | _ => Option.none

/-- Python `==` on `PyVal`. -/
def pyEq (x y : PyVal) : Bool :=
  match x, y with
  | .str s, .str t => decide (s = t)
  | .none, .none => true
  | x, y =>
    match x.numVal, y.numVal with
    | some q, some r => decide (q = r)
    | _, _ => false

def natStr (n : Nat) : Str := (Nat.repr n).data

/-- `str(z)` for a Python int. -/
def intStr (z : ℤ) : Str :=
  (if z < 0 then str "-" else []) ++ natStr z.natAbs

/-- Render `z / 1000` in decimal with at least one fractional digit,
stripping trailing zeros: the `str()` of a float that is an exact multiple
of 0.001, e.g. `1000 ↦ "1.0"`, `-1250 ↦ "-1.25"`. -/
def thousandthsStr (z : ℤ) : Str :=
  let sign := if z < 0 then str "-" else []
  let m := z.natAbs
  let fr := m % 1000
  let fracDigits :=
    if fr = 0 then str "0"
    else
      let d := natStr fr
      ((List.replicate (3 - d.length) '0' ++ d).reverse.dropWhile
        (fun c => c = '0')).reverse
  sign ++ natStr (m / 1000) ++ str "." ++ fracDigits

/-- Python `round(q, 3)` (ties and binary-representation noise abstracted:
no claim exercises them). -/
def round3 (q : ℚ) : ℚ := (round (q * 1000) : ℤ) / 1000

/-- `str()` of a float; exact for the 3-decimal multiples `_norm_floats`
produces (its only call sites). -/
def pyFloatStr (q : ℚ) : Str := thousandthsStr (round (q * 1000))

/-- `str(v)` / f-string interpolation of a `PyVal`. -/
def pyValStr : PyVal → Str
  | .none => str "None"
  | .str s => s
  | .int z => intStr z
  | .float q => pyFloatStr q
  | .bool b => if b then str "True" else str "False"

/-- An entry of an annotation's `rect` / `quadpoints` / `color` list:
either a value `float()` accepts, or one on which `float()` raises. -/
inductive PyNum
  | num (q : ℚ)
  | junk
deriving DecidableEq, Repr

/-!
## Python dicts (string keys, insertion order, overwrite-on-repeat)
-/

def dictInsert {β : Type} (d : List (Str × β)) (k : Str) (v : β) : List (Str × β) :=
  if d.any (fun p => decide (p.1 = k)) then
    d.map (fun p => if p.1 = k then (k, v) else p)
  else d ++ [(k, v)]

/-- Build a dict from key-value pairs in order (later pairs overwrite,
keeping the first-insertion position, as CPython dicts do). -/
def buildDict {β : Type} (l : List (Str × β)) : List (Str × β) :=
  l.foldl (fun d p => dictInsert d p.1 p.2) []

/-- `d.get(k)`. -/
def dictGet {β : Type} (d : List (Str × β)) (k : Str) : Option β :=
  (d.find? (fun p => decide (p.1 = k))).map (fun p => p.2)

/-- Deduplicate keeping first occurrences; canonical iteration order chosen
for Python's unordered `set` unions (the spec flags this ordering as
unspecified; no claim depends on it). -/
def dedupKeepFirst : List Str → List Str
  | [] => []
  | x :: xs => x :: (dedupKeepFirst xs).filter (fun y => decide (y ≠ x))

/-!
## The normalized document model

Structures mirror the dictionaries produced by the extraction layer
(`DocumentParser`): fields the extractor always populates are total; fields
read through `.get` with a default are `Option` or `PyVal` (where
`PyVal.none` models both a stored `None` and a missing key).  `Doc.dtype` is
`Option Str` because `detect_changes` reads `original['type']` with plain
indexing: a missing kind raises `KeyError`, modelled as the `Except` error
branch of `detect_changes`.
-/

structure Run where
  text : Str
  bold : PyVal
  italic : PyVal
  underline : PyVal
  font_name : PyVal
  font_size : PyVal
  font_color : PyVal
deriving DecidableEq, Repr

structure Paragraph where
  text : Str
  style : PyVal
  runs : List Run
deriving DecidableEq, Repr

structure TableCell where
  text : Str
deriving DecidableEq, Repr

structure Table where
  rows : List (List TableCell)
deriving DecidableEq, Repr

structure DocImage where
  data : Str
  size : Nat × Nat
deriving DecidableEq, Repr

structure Page where
  text : Str
deriving DecidableEq, Repr

/-- A PDF annotation record.  `id`, `subtype`, `contents`, `author`,
`subject` are read by the detector through `a.get(k) or ""`, collapsing
missing and `None` to `""`; they are modelled as plain `Str` with `[]`
standing for absent. -/
structure Annot where
  id : Str
  page_number : PyVal
  subtype : Str
  rect : Option (List PyNum)
  quadpoints : Option (List PyNum)
  color : Option (List PyNum)
  contents : Str
  author : Str
  subject : Str
deriving DecidableEq, Repr

structure Font where
  name : PyVal
  size : PyVal
  bold : PyVal
  italic : PyVal
  color : PyVal
deriving DecidableEq, Repr

structure Fill where
  pattern_type : PyVal
  fg_color : PyVal
deriving DecidableEq, Repr

structure Border where
  left : PyVal
  right : PyVal
  top : PyVal
  bottom : PyVal
deriving DecidableEq, Repr

/-- A spreadsheet cell; `font`/`fill`/`border` are `Option`al: `none`
models a missing key, for which `.get('font', {})` yields an empty dict
whose every attribute reads as `None`. -/
structure Cell where
  coordinate : Str
  value : PyVal
  font : Option Font
  fill : Option Fill
  border : Option Border
deriving DecidableEq, Repr

structure Sheet where
  name : Str
  cells : List (List Cell)
deriving DecidableEq, Repr

structure Doc where
  dtype : Option Str
  paragraphs : List Paragraph
  pages : List Page
  tables : List Table
  images : List DocImage
  annotations : List Annot
  sheets : List Sheet
deriving DecidableEq, Repr

/-- Snapshot of the compared annotation fields, as embedded in the
`old` / `new` payloads of a modified annotation record. -/
structure AnnSnap where
  contents : Str
  rect : Option (List PyNum)
  quadpoints : Option (List PyNum)
  color : Option (List PyNum)
  author : Str
  subject : Str
  subtype : Str
deriving DecidableEq, Repr

def annSnap (a : Annot) : AnnSnap :=
  ⟨a.contents, a.rect, a.quadpoints, a.color, a.author, a.subject, a.subtype⟩

/-!
## Change records

One constructor per dictionary shape the detector emits.  Constructors
carry the payload fields of the corresponding dict; derived display strings
(`'content'` of sheet added/deleted records, which is
`"Sheet added: " ++ name`) are functions of the stored fields and are not
duplicated.  Only the text-category and annotation-category shapes carry a
`change_type` key in the source; `changeTypeField` returns it.
-/

inductive Change
  | textDeleted (content : Str) (paragraph_index : Nat)
  | textAdded (content : Str) (paragraph_index : Nat)
  | textModified (content_html : Str) (old_text new_text : Str)
      (added_terms deleted_terms : List Str) (paragraph_index : Nat)
  | pdfDeleted (content : Str) (page_number : Nat)
  | pdfAdded (content : Str) (page_number : Nat)
  | pdfModified (content_html : Str) (old_text new_text : Str)
      (added_terms deleted_terms : List Str) (page_number : Nat)
  | sheetAdded (sheet_name : Str)
  | sheetDeleted (sheet_name : Str)
  | cellAdded (content : Str) (coordinate sheet_name : Str)
  | cellDeleted (content : Str) (coordinate sheet_name : Str)
  | cellModified (coordinate sheet_name : Str) (old_value new_value : Str)
      (content_html : Str) (added_terms deleted_terms : List Str)
  | annAdded (id : Str) (page_number : PyVal) (subtype : Str) (content : Str)
      (rect quadpoints : Option (List PyNum)) (author subject : Str)
      (color : Option (List PyNum))
  | annDeleted (id : Str) (page_number : PyVal) (subtype : Str) (content : Str)
      (rect quadpoints : Option (List PyNum)) (author subject : Str)
      (color : Option (List PyNum))
  | annModified (id : Str) (page_number : PyVal) (subtype : Str)
      (content_html : Option Str) (old new : AnnSnap) (changed_fields : List Str)
  | paraStyleChange (paragraph_index : Nat) (old_style new_style : PyVal)
  | runFormattingChange (paragraph_index run_index : Nat) (text : Str)
      (changes : List Str)
  | cellFormattingChange (coordinate sheet_name : Str) (changes : List Str)
  | tableCountChange (original_count revised_count : Nat)
  | tableRowCountChange (table_index original_rows revised_rows : Nat)
  | tableCellChange (table_index row_index cell_index : Nat)
      (old_text new_text : Str)
  | imageCountChange (original_count revised_count : Nat)
  | imageSizeChange (image_index : Nat) (old_size new_size : Nat × Nat)
  | imageContentChange (image_index : Nat) (similarity : ℚ)
  | documentTypeChange (original_type revised_type : Str)
  | paragraphCountChange (original_count revised_count : Nat)
  | pageCountChange (original_count revised_count : Nat)
  | sheetCountChange (original_count revised_count : Nat)
deriving DecidableEq, Repr

/-- The `'change_type'` entry of the emitted dict, `Option.none` for the
record shapes that carry no such key. -/
def changeTypeField : Change → Option Str
  | .textDeleted _ _ => some (str "deleted")
  | .textAdded _ _ => some (str "added")
  | .textModified _ _ _ _ _ _ => some (str "modified")
  | .pdfDeleted _ _ => some (str "deleted")
  | .pdfAdded _ _ => some (str "added")
  | .pdfModified _ _ _ _ _ _ => some (str "modified")
  | .sheetAdded _ => some (str "added")
  | .sheetDeleted _ => some (str "deleted")
  | .cellAdded _ _ _ => some (str "added")
  | .cellDeleted _ _ _ => some (str "deleted")
  | .cellModified _ _ _ _ _ _ _ => some (str "modified")
  | .annAdded _ _ _ _ _ _ _ _ _ => some (str "added")
  | .annDeleted _ _ _ _ _ _ _ _ _ => some (str "deleted")
  | .annModified _ _ _ _ _ _ _ => some (str "modified")
  | _ => Option.none

structure Summary where
  total_changes : Nat
  text_changes_count : Nat
  formatting_changes_count : Nat
  table_changes_count : Nat
  image_changes_count : Nat
  annotation_changes_count : Nat
  structural_changes_count : Nat
deriving DecidableEq, Repr

structure Report where
  text_changes : List Change
  formatting_changes : List Change
  table_changes : List Change
  image_changes : List Change
  annotation_changes : List Change
  structural_changes : List Change
  summary : Summary
deriving DecidableEq, Repr

/-!
## The change detector

All methods of `ChangeDetector`, one Lean definition each.  The image
similarity `_compare_images` is out of the core's scope (spec §1, §6): it is
a parameter `sim`, constrained only as the spec constrains it (score in
`[0,1]`, `0.0` on decode failure, logged and non-fatal).  The threshold is
the source's `self.image_similarity_threshold = 0.95`.
-/

namespace ChangeDetector

def joinComma (l : List Str) : Str := (l.intersperse (str ",")).flatten

/-- `f"{name}: {o} → {r}"`, the attribute-difference strings of the two
formatting comparators. -/
def fmtAttr (name : Str) (o r : PyVal) : Str :=
  name ++ str ": " ++ pyValStr o ++ str " → " ++ pyValStr r

/-- `op[i]['text'] if i < len(op) else ""`. -/
def textAt (ps : List Paragraph) (i : Nat) : Str :=
  match ps.get? i with
  | some p => p.text
  | Option.none => []

/-- Body of one iteration of `_detect_docx_text_changes`'s index loop. -/
def docxTextStep (op rp : List Paragraph) (i : Nat) : Option Change :=
  let ot := textAt op i
  let nt := textAt rp i
  if ot ≠ [] ∧ nt = [] then some (.textDeleted ot i)
  else if nt ≠ [] ∧ ot = [] then some (.textAdded nt i)
  else if ot ≠ nt then
    some (.textModified (word_diff_html ot nt).1 ot nt
      (word_diff_html ot nt).2.1 (word_diff_html ot nt).2.2 i)
  else Option.none

def detect_docx_text_changes (original revised : Doc) : List Change :=
  (List.range (max original.paragraphs.length revised.paragraphs.length)).filterMap
    (docxTextStep original.paragraphs revised.paragraphs)

/-- `(op[i].get('text') if i < len(op) else "") or ""`. -/
def pageTextAt (ps : List Page) (i : Nat) : Str :=
  match ps.get? i with
  | some p => p.text
  | Option.none => []

/-- Records emitted for one opcode by `_detect_pdf_text_changes`. -/
def pdfOpRecords (a b : List Str) (pageNo : Nat) (o : Difflib.Op) : List Change :=
  match o.tag with
  | .equal => []
  | .delete => (sl a o.a1 o.a2).map (fun sent => .pdfDeleted sent pageNo)
  | .insert => (sl b o.b1 o.b2).map (fun sent => .pdfAdded sent pageNo)
  | .replace =>
    let old_seg := sl a o.a1 o.a2
    let new_seg := sl b o.b1 o.b2
    let k := min old_seg.length new_seg.length
    ((old_seg.take k).zip (new_seg.take k)).map (fun p =>
      Change.pdfModified (word_diff_html p.1 p.2).1 p.1 p.2
        (word_diff_html p.1 p.2).2.1 (word_diff_html p.1 p.2).2.2 pageNo)
    ++ (old_seg.drop k).map (fun s => .pdfDeleted s pageNo)
    ++ (new_seg.drop k).map (fun s => .pdfAdded s pageNo)

def detect_pdf_text_changes (original revised : Doc) : List Change :=
  (List.range (max original.pages.length revised.pages.length)).flatMap fun i =>
    let a := split_sentences (pageTextAt original.pages i)
    let b := split_sentences (pageTextAt revised.pages i)
    (Difflib.get_opcodes a b).flatMap (pdfOpRecords a b (i + 1))

/-- `_to_str`. -/
def to_str (v : PyVal) : Str :=
  match v with
  | PyVal.none => []
  | v => pyValStr v

/-- `{c['coordinate']: c for row in sheet['cells'] for c in row}`. -/
def sheetCellsDict (s : Sheet) : List (Str × Cell) :=
  buildDict (s.cells.flatten.map (fun c => (c.coordinate, c)))

/-- Records emitted for one sheet name by `_detect_xlsx_text_changes`. -/
def xlsxTextForName (osheets rsheets : List Sheet) (name : Str) : List Change :=
  match osheets.find? (fun s => decide (s.name = name)),
        rsheets.find? (fun s => decide (s.name = name)) with
  | Option.none, _ => [.sheetAdded name]
  | some _, Option.none => [.sheetDeleted name]
  | some os, some rs =>
    let ocells := sheetCellsDict os
    let rcells := sheetCellsDict rs
    (dedupKeepFirst (ocells.map (fun p => p.1) ++ rcells.map (fun p => p.1))).flatMap
      fun coord =>
        match dictGet ocells coord, dictGet rcells coord with
        | Option.none, some rc => [.cellAdded (to_str rc.value) coord name]
        | some oc, Option.none => [.cellDeleted (to_str oc.value) coord name]
        | some oc, some rc =>
          let old_val := to_str oc.value
          let new_val := to_str rc.value
          if old_val ≠ new_val then
            [Change.cellModified coord name old_val new_val
              (word_diff_html old_val new_val).1
              (word_diff_html old_val new_val).2.1
              (word_diff_html old_val new_val).2.2]
          else []
        | Option.none, Option.none => []

def detect_xlsx_text_changes (original revised : Doc) : List Change :=
  (dedupKeepFirst (original.sheets.map (fun s => s.name)
      ++ revised.sheets.map (fun s => s.name))).flatMap
    (xlsxTextForName original.sheets revised.sheets)

def detect_text_changes (original revised : Doc) (ot rt : Str) : List Change :=
  if ot = str "docx" ∧ rt = str "docx" then detect_docx_text_changes original revised
  else if ot = str "pdf" ∧ rt = str "pdf" then detect_pdf_text_changes original revised
  else if ot = str "xlsx" ∧ rt = str "xlsx" then detect_xlsx_text_changes original revised
  else []

/-- `_norm_floats`: `None` stays `None`; a list whose every entry `float()`
accepts is rounded entrywise to 3 decimals; any entry `float()` rejects
makes the whole comprehension raise, caught and turned into `None`. -/
def norm_floats : Option (List PyNum) → Option (List ℚ)
  | Option.none => Option.none
  | some l =>
    if l.all (fun x => match x with | .num _ => true | .junk => false) then
      some (l.map (fun x => match x with | .num q => round3 q | .junk => 0))
    else Option.none

/-- `_annot_key`: the explicit id when non-empty, else the comparator-side
fallback `"AUTO-" + md5(f"{page}:{subtype}:{rect3dp}:{contents[:64]}")[:10]`. -/
def annot_key (a : Annot) : Str :=
  if a.id ≠ [] then a.id
  else
    let rect := (norm_floats a.rect).getD []
    let base := pyValStr a.page_number ++ str ":" ++ a.subtype ++ str ":"
      ++ joinComma (rect.map pyFloatStr) ++ str ":" ++ a.contents.take 64
    str "AUTO-" ++ (MD5.md5Hex (utf8 base)).take 10

/-- The `diffs` list of `_detect_annotation_changes`'s modified branch. -/
def annotDiffs (o r : Annot) : List Str :=
  (if o.contents ≠ r.contents then [str "contents"] else [])
  ++ (if norm_floats o.rect ≠ norm_floats r.rect then [str "rect"] else [])
  ++ (if norm_floats o.quadpoints ≠ norm_floats r.quadpoints then [str "quadpoints"] else [])
  ++ (if norm_floats o.color ≠ norm_floats r.color then [str "color"] else [])
  ++ (if o.subtype ≠ r.subtype then [str "subtype"] else [])
  ++ (if o.author ≠ r.author then [str "author"] else [])
  ++ (if o.subject ≠ r.subject then [str "subject"] else [])

def annotModifiedRecord (k : Str) (o r : Annot) : Option Change :=
  let diffs := annotDiffs o r
  if diffs ≠ [] then
    some (.annModified (if r.id ≠ [] then r.id else k) r.page_number r.subtype
      (if o.contents ≠ r.contents then some (word_diff_html o.contents r.contents).1
       else Option.none)
      (annSnap o) (annSnap r) diffs)
  else Option.none

/-- `_detect_annotation_changes`.  Added records iterate `rmap`, deleted
records iterate `omap`, modified records iterate the key intersection
(Python iterates an unordered `set`; `omap` insertion order is the chosen
canonical order — the spec flags this ordering as unspecified). -/
def detect_annotation_changes (original revised : Doc) (ot rt : Str) : List Change :=
  if ot = str "pdf" ∧ rt = str "pdf" then
    let omap := buildDict (original.annotations.map (fun a => (annot_key a, a)))
    let rmap := buildDict (revised.annotations.map (fun a => (annot_key a, a)))
    (rmap.filter (fun p => decide (dictGet omap p.1 = Option.none))).map (fun p =>
      Change.annAdded (if p.2.id ≠ [] then p.2.id else p.1) p.2.page_number
        p.2.subtype p.2.contents p.2.rect p.2.quadpoints p.2.author p.2.subject
        p.2.color)
    ++ (omap.filter (fun p => decide (dictGet rmap p.1 = Option.none))).map (fun p =>
      Change.annDeleted (if p.2.id ≠ [] then p.2.id else p.1) p.2.page_number
        p.2.subtype p.2.contents p.2.rect p.2.quadpoints p.2.author p.2.subject
        p.2.color)
    ++ omap.filterMap (fun p =>
        match dictGet rmap p.1 with
        | some rAnn => annotModifiedRecord p.1 p.2 rAnn
        | Option.none => Option.none)
  else []

/-- `_compare_run_formatting`. -/
def compare_run_formatting (o r : Run) : List Str :=
  (if ¬ pyEq o.bold r.bold then [fmtAttr (str "bold") o.bold r.bold] else [])
  ++ (if ¬ pyEq o.italic r.italic then [fmtAttr (str "italic") o.italic r.italic] else [])
  ++ (if ¬ pyEq o.underline r.underline then [fmtAttr (str "underline") o.underline r.underline] else [])
  ++ (if ¬ pyEq o.font_name r.font_name then [fmtAttr (str "font_name") o.font_name r.font_name] else [])
  ++ (if ¬ pyEq o.font_size r.font_size then [fmtAttr (str "font_size") o.font_size r.font_size] else [])
  ++ (if ¬ pyEq o.font_color r.font_color then [fmtAttr (str "font_color") o.font_color r.font_color] else [])

def detect_docx_formatting_changes (original revised : Doc) : List Change :=
  (original.paragraphs.zip revised.paragraphs).enum.flatMap fun pi =>
    (if ¬ pyEq pi.2.1.style pi.2.2.style then
      [Change.paraStyleChange pi.1 pi.2.1.style pi.2.2.style]
     else [])
    ++ (pi.2.1.runs.zip pi.2.2.runs).enum.flatMap fun rj =>
        if rj.2.1.text = rj.2.2.text then
          let fmt := compare_run_formatting rj.2.1 rj.2.2
          if fmt ≠ [] then [Change.runFormattingChange pi.1 rj.1 rj.2.1.text fmt]
          else []
        else []

def emptyFont : Font := ⟨PyVal.none, PyVal.none, PyVal.none, PyVal.none, PyVal.none⟩
def emptyFill : Fill := ⟨PyVal.none, PyVal.none⟩
def emptyBorder : Border := ⟨PyVal.none, PyVal.none, PyVal.none, PyVal.none⟩

/-- `_compare_cell_formatting`. -/
def compare_cell_formatting (oc rc : Cell) : List Str :=
  let fo := oc.font.getD emptyFont
  let fr := rc.font.getD emptyFont
  let lo := oc.fill.getD emptyFill
  let lr := rc.fill.getD emptyFill
  let bo := oc.border.getD emptyBorder
  let br := rc.border.getD emptyBorder
  (if ¬ pyEq fo.name fr.name then [fmtAttr (str "font_name") fo.name fr.name] else [])
  ++ (if ¬ pyEq fo.size fr.size then [fmtAttr (str "font_size") fo.size fr.size] else [])
  ++ (if ¬ pyEq fo.bold fr.bold then [fmtAttr (str "font_bold") fo.bold fr.bold] else [])
  ++ (if ¬ pyEq fo.italic fr.italic then [fmtAttr (str "font_italic") fo.italic fr.italic] else [])
  ++ (if ¬ pyEq fo.color fr.color then [fmtAttr (str "font_color") fo.color fr.color] else [])
  ++ (if ¬ pyEq lo.fg_color lr.fg_color then [fmtAttr (str "fill_color") lo.fg_color lr.fg_color] else [])
  ++ (if ¬ pyEq bo.left br.left then [fmtAttr (str "border_left") bo.left br.left] else [])
  ++ (if ¬ pyEq bo.right br.right then [fmtAttr (str "border_right") bo.right br.right] else [])
  ++ (if ¬ pyEq bo.top br.top then [fmtAttr (str "border_top") bo.top br.top] else [])
  ++ (if ¬ pyEq bo.bottom br.bottom then [fmtAttr (str "border_bottom") bo.bottom br.bottom] else [])

/-- Records of one position-aligned sheet pair in
`_detect_xlsx_formatting_changes` (pairs with differing names are skipped
by the `continue`). -/
def xlsxFmtPair (os rs : Sheet) : List Change :=
  if os.name ≠ rs.name then []
  else
    let rcells := sheetCellsDict rs
    (sheetCellsDict os).flatMap fun p =>
      match dictGet rcells p.1 with
      | Option.none => []
      | some rc =>
        if pyEq p.2.value rc.value then
          let fmt := compare_cell_formatting p.2 rc
          if fmt ≠ [] then [Change.cellFormattingChange p.1 os.name fmt] else []
        else []

def detect_xlsx_formatting_changes (original revised : Doc) : List Change :=
  (original.sheets.zip revised.sheets).flatMap fun p => xlsxFmtPair p.1 p.2

def detect_formatting_changes (original revised : Doc) (ot rt : Str) : List Change :=
  if ot = str "docx" ∧ rt = str "docx" then
    detect_docx_formatting_changes original revised
  else if ot = str "xlsx" ∧ rt = str "xlsx" then
    detect_xlsx_formatting_changes original revised
  else []

def detect_docx_table_changes (original revised : Doc) : List Change :=
  (if original.tables.length ≠ revised.tables.length then
    [Change.tableCountChange original.tables.length revised.tables.length]
   else [])
  ++ (original.tables.zip revised.tables).enum.flatMap fun ti =>
    (if ti.2.1.rows.length ≠ ti.2.2.rows.length then
      [Change.tableRowCountChange ti.1 ti.2.1.rows.length ti.2.2.rows.length]
     else [])
    ++ (ti.2.1.rows.zip ti.2.2.rows).enum.flatMap fun rj =>
      (rj.2.1.zip rj.2.2).enum.flatMap fun ck =>
        if ck.2.1.text ≠ ck.2.2.text then
          [Change.tableCellChange ti.1 rj.1 ck.1 ck.2.1.text ck.2.2.text]
        else []

def detect_table_changes (original revised : Doc) (ot rt : Str) : List Change :=
  if ot = str "docx" ∧ rt = str "docx" then detect_docx_table_changes original revised
  else []

/-- `self.image_similarity_threshold = 0.95` (written as the fraction
`95/100` of the decimal literal). -/
def image_similarity_threshold : ℚ := mkRat 95 100

def detect_docx_image_changes (sim : Str → Str → ℚ) (original revised : Doc) :
    List Change :=
  (if original.images.length ≠ revised.images.length then
    [Change.imageCountChange original.images.length revised.images.length]
   else [])
  ++ (original.images.zip revised.images).enum.flatMap fun pi =>
    (if pi.2.1.size ≠ pi.2.2.size then
      [Change.imageSizeChange pi.1 pi.2.1.size pi.2.2.size]
     else [])
    ++ (if sim pi.2.1.data pi.2.2.data < image_similarity_threshold then
      [Change.imageContentChange pi.1 (sim pi.2.1.data pi.2.2.data)]
     else [])

def detect_image_changes (sim : Str → Str → ℚ) (original revised : Doc)
    (ot rt : Str) : List Change :=
  if ot = str "docx" ∧ rt = str "docx" then
    detect_docx_image_changes sim original revised
  else []

def detect_structural_changes (original revised : Doc) (ot rt : Str) : List Change :=
  if ot ≠ rt then [Change.documentTypeChange ot rt]
  else if ot = str "docx" then
    if original.paragraphs.length ≠ revised.paragraphs.length then
      [Change.paragraphCountChange original.paragraphs.length revised.paragraphs.length]
    else []
  else if ot = str "pdf" then
    if original.pages.length ≠ revised.pages.length then
      [Change.pageCountChange original.pages.length revised.pages.length]
    else []
  else if ot = str "xlsx" then
    if original.sheets.length ≠ revised.sheets.length then
      [Change.sheetCountChange original.sheets.length revised.sheets.length]
    else []
  else []

/-- `ChangeDetector.detect_changes`.  The `error` branch models the
`KeyError` raised when either document lacks the `'type'` key: every
execution path reads both keys (the annotation detector's chained comparison
`original['type'] == revised['type'] == 'pdf'` at the latest), so a missing
kind on either side raises before any report is returned. -/
def detect_changes (sim : Str → Str → ℚ) (original revised : Doc) :
    Except Unit Report :=
  match original.dtype, revised.dtype with
  | some ot, some rt =>
    let t := detect_text_changes original revised ot rt
    let f := detect_formatting_changes original revised ot rt
    let tb := detect_table_changes original revised ot rt
    let im := detect_image_changes sim original revised ot rt
    let an := detect_annotation_changes original revised ot rt
    let st := detect_structural_changes original revised ot rt
    .ok
      { text_changes := t
        formatting_changes := f
        table_changes := tb
        image_changes := im
        annotation_changes := an
        structural_changes := st
        summary :=
          { total_changes :=
              t.length + f.length + tb.length + im.length + an.length + st.length
            text_changes_count := t.length
            formatting_changes_count := f.length
            table_changes_count := tb.length
            image_changes_count := im.length
            annotation_changes_count := an.length
            structural_changes_count := st.length } }
  | _, _ => .error ()

end ChangeDetector

/-- `f'{n:.2f}'`: fixed two-decimal rendering (half-even ties and binary
representation abstracted as for `round3`; unexercised by the claims). -/
def fmt2f (q : ℚ) : Str :=
  let z := round (q * 100)
  let m := z.natAbs
  let d := natStr (m % 100)
  (if z < 0 then str "-" else []) ++ natStr (m / 100) ++ str "."
    ++ (List.replicate (2 - d.length) '0' ++ d)

/-- `_compute_annot_fallback_id` of `0914_backup/document_parser.py`:
`AUTO-{page}-{subtype}-{md5(f"{page}:{subtype}:{rect2f}:{contents}")[:10]}`
where `rect2f` is the comma-join of the entries formatted `f'{n:.2f}'`. -/
def compute_annot_fallback_id (page_number : ℤ) (subtype : Str)
    (rect : List ℚ) (contents : Str) : Str :=
  let base := intStr page_number ++ str ":" ++ subtype ++ str ":"
    ++ ChangeDetector.joinComma (rect.map fmt2f) ++ str ":" ++ contents
  let digest := (MD5.md5Hex (utf8 base)).take 10
  str "AUTO-" ++ intStr page_number ++ str "-" ++ subtype ++ str "-" ++ digest

/-!
## Proof-support definitions
-/

namespace Difflib

variable {α : Type} [DecidableEq α]

/-- The length recorded in `j2len[j]` after processing row `i`: the longest
common suffix of `a[..i]` and `b[..j]` whose `b`-positions all pass the
`b2j` lookup and the `[blo, bhi)` window (0 outside those conditions).
The inner loop's `newj2len[j] = j2len.get(j-1, 0) + 1` recurrence computes
exactly this function (proved below). -/
def runLen (a b : List α) (alo blo bhi : Nat) : Nat → Nat → Nat
  | i, j =>
    if j ∈ jsAt a b i ∧ blo ≤ j ∧ j < bhi then
      (if h : i ≤ alo ∨ j = 0 then 0
       else runLen a b alo blo bhi (i - 1) (j - 1)) + 1
    else 0
termination_by i _ => i
decreasing_by
  omega

/-- The blocks `ms` lie, in order, between positions `s` and `e` of the two
sequences: nonempty, pairwise non-overlapping, monotone, and each a genuine
common slice. -/
def Chain (a b : List α) : Nat × Nat → List Best → Nat × Nat → Prop
  | s, [], e => s.1 ≤ e.1 ∧ s.2 ≤ e.2
  | s, m :: ms, e =>
    s.1 ≤ m.i ∧ s.2 ≤ m.j ∧ 0 < m.size ∧
    sl a m.i (m.i + m.size) = sl b m.j (m.j + m.size) ∧
    Chain a b (m.i + m.size, m.j + m.size) ms e

/-- The tokens an opcode contributes to the revised-side reconstruction:
`equal` spans (read from the `a` side), plus the new side of `insert` and
`replace` spans. -/
def opNewTokens (a b : List α) (o : Op) : List α :=
  match o.tag with
  | .equal => sl a o.a1 o.a2
  | .insert => sl b o.b1 o.b2
  | .replace => sl b o.b1 o.b2
  | .delete => []

/-- The tokens an opcode contributes to the original-side reconstruction:
`equal` spans plus the old side of `delete` and `replace` spans. -/
def opOldTokens (a b : List α) (o : Op) : List α :=
  match o.tag with
  | .equal => sl a o.a1 o.a2
  | .delete => sl a o.a1 o.a2
  | .replace => sl a o.a1 o.a2
  | .insert => []

end Difflib

/-- The Change Report with every category empty and all counts zero. -/
def emptyReport : Report :=
  ⟨[], [], [], [], [], [], ⟨0, 0, 0, 0, 0, 0, 0⟩⟩

/-- Accessor for the `paragraph_index` of a word-kind text change record. -/
def docxTextIndex : Change → Option Nat
  | .textDeleted _ i => some i
  | .textAdded _ i => some i
  | .textModified _ _ _ _ _ i => some i
  | _ => Option.none

/-- Accessor for the `coordinate` of a `cell_formatting_change` record. -/
def cellFmtCoord : Change → Option Str
  | .cellFormattingChange co _ _ => some co
  | _ => Option.none

/-- A document with no content and no kind. -/
def emptyDoc : Doc :=
  ⟨Option.none, [], [], [], [], [], []⟩

/-- A word document with a paragraph, a run, a table and an image, used to
witness the no-op invariant. -/
def wordNoopDoc : Doc :=
  { emptyDoc with
    dtype := some (str "docx")
    paragraphs := [⟨str "Hello world", PyVal.str (str "Normal"),
      [⟨str "Hello world", PyVal.bool true, PyVal.none, PyVal.none,
        PyVal.str (str "Arial"), PyVal.float 11, PyVal.none⟩]⟩]
    tables := [⟨[[⟨str "a"⟩, ⟨str "b"⟩]]⟩]
    images := [⟨str "iVBORw0KGgo", (4, 4)⟩] }

/-- A word document whose single image payload is the string `"x"`, which
`base64.b64decode` rejects, so `_compare_images` returns 0.0 on it. -/
def docImgBad : Doc :=
  { emptyDoc with
    dtype := some (str "docx")
    images := [⟨str "x", (2, 2)⟩] }

/-- A pair of documents with the unrecognized kind `pptx` on both sides. -/
def pptxDoc : Doc :=
  { emptyDoc with dtype := some (str "pptx") }

/-- Word documents whose only difference is a paragraph style. -/
def styleDocA : Doc :=
  { emptyDoc with
    dtype := some (str "docx")
    paragraphs := [⟨str "Same text", PyVal.str (str "Normal"), []⟩] }

def styleDocB : Doc :=
  { emptyDoc with
    dtype := some (str "docx")
    paragraphs := [⟨str "Same text", PyVal.str (str "Heading 1"), []⟩] }

/-- A word document with no paragraphs, and one whose only paragraph has
empty text. -/
def c5docO : Doc :=
  { emptyDoc with dtype := some (str "docx") }

def c5docR : Doc :=
  { emptyDoc with
    dtype := some (str "docx")
    paragraphs := [⟨[], PyVal.none, []⟩] }

/-- Word documents for the empty-text-as-absence witness: original paragraph
`"x"`, revised paragraph `""`. -/
def c9docO : Doc :=
  { emptyDoc with
    dtype := some (str "docx")
    paragraphs := [⟨str "x", PyVal.none, []⟩] }

def c9docR : Doc :=
  { emptyDoc with
    dtype := some (str "docx")
    paragraphs := [⟨[], PyVal.none, []⟩] }

/-- Spreadsheet cells at `A1` with equal values and differing bold flags. -/
def cellBoldT : Cell :=
  ⟨str "A1", PyVal.int 10,
    some ⟨PyVal.none, PyVal.none, PyVal.bool true, PyVal.none, PyVal.none⟩,
    Option.none, Option.none⟩

def cellBoldF : Cell :=
  ⟨str "A1", PyVal.int 10,
    some ⟨PyVal.none, PyVal.none, PyVal.bool false, PyVal.none, PyVal.none⟩,
    Option.none, Option.none⟩

/-- Spreadsheet documents whose position-aligned sheets have different
names but otherwise differ only in cell formatting. -/
def xlsxNameA : Doc :=
  { emptyDoc with
    dtype := some (str "xlsx")
    sheets := [⟨str "A", [[cellBoldT]]⟩] }

def xlsxNameB : Doc :=
  { emptyDoc with
    dtype := some (str "xlsx")
    sheets := [⟨str "B", [[cellBoldF]]⟩] }

/-- The same pair with matching sheet names. -/
def xlsxSameA : Doc :=
  { emptyDoc with
    dtype := some (str "xlsx")
    sheets := [⟨str "A", [[cellBoldT]]⟩] }

def xlsxSameB : Doc :=
  { emptyDoc with
    dtype := some (str "xlsx")
    sheets := [⟨str "A", [[cellBoldF]]⟩] }

/-- A spreadsheet document for the kind-mismatch witness. -/
def xlsxEmptyDoc : Doc :=
  { emptyDoc with dtype := some (str "xlsx") }

/-- An annotation with no explicit identity name: page 1, subtype `Text`,
no rectangle, contents `"x"`. -/
def c2annot : Annot :=
  ⟨[], PyVal.int 1, str "Text", Option.none, Option.none, Option.none,
    str "x", [], []⟩

/-- Annotations sharing the explicit id `n` whose rects are, respectively,
malformed (an entry `float()` rejects) and absent. -/
def annJunk1 : Annot :=
  ⟨str "n", PyVal.int 1, str "T", some [PyNum.junk], some [PyNum.junk],
    some [PyNum.junk], str "c", [], []⟩

def annJunk2 : Annot :=
  ⟨str "n", PyVal.int 1, str "T", Option.none, Option.none, Option.none,
    str "c", [], []⟩

-- ===================== THEOREMS =====================

namespace Difflib

variable {α : Type} [DecidableEq α]

theorem sl_len (l : List α) : sl l 0 l.length = l := by
  simp [sl]

theorem sl_nil (l : List α) (i : Nat) : sl l i i = [] := by
  simp [sl]

theorem sl_append (l : List α) {i j k : Nat} (h1 : i ≤ j) (h2 : j ≤ k) :
    sl l i k = sl l i j ++ sl l j k := by
  unfold sl
  have hk : k - i = (j - i) + (k - j) := by omega
  rw [hk, List.take_add, List.drop_drop]
  have hj : i + (j - i) = j := by omega
  rw [hj]

theorem sl_one (l : List α) {i : Nat} {x : α} (h : l.get? i = some x) :
    sl l i (i + 1) = [x] := by
  have h0 : (l.drop i).get? 0 = some x := by
    rw [List.get?_drop]; simpa using h
  unfold sl
  have h1 : i + 1 - i = 1 := by omega
  rw [h1]
  cases hd : l.drop i with
  | nil => rw [hd] at h0; simp at h0
  | cons y t =>
    rw [hd] at h0
    simp only [List.get?] at h0
    cases h0
    simp

theorem sl_snoc (l : List α) {i j : Nat} {x : α} (h1 : i ≤ j)
    (h : l.get? j = some x) : sl l i (j + 1) = sl l i j ++ [x] := by
  rw [sl_append l h1 (by omega : j ≤ j + 1), sl_one l h]

theorem sl_cons (l : List α) {i j : Nat} {x : α} (h1 : i < j)
    (h : l.get? i = some x) : sl l i j = x :: sl l (i + 1) j := by
  rw [sl_append l (by omega : i ≤ i + 1) (by omega : i + 1 ≤ j), sl_one l h]
  rfl

theorem mem_indicesOf {b : List α} {x : α} {j : Nat} :
    j ∈ indicesOf b x ↔ b.get? j = some x := by
  unfold indicesOf
  simp only [List.mem_filter, List.mem_range, decide_eq_true_eq]
  constructor
  · exact fun h => h.2
  · intro h
    refine ⟨?_, h⟩
    have := List.get?_eq_some.mp h
    exact this.choose

theorem mem_b2j {b : List α} {x : α} {j : Nat} (h : j ∈ b2j b x) :
    b.get? j = some x := by
  unfold b2j at h
  split at h
  · simp at h
  · exact mem_indicesOf.mp h

theorem mem_jsAt {a b : List α} {i j : Nat} (h : j ∈ jsAt a b i) :
    ∃ x, a.get? i = some x ∧ b.get? j = some x := by
  unfold jsAt at h
  split at h
  next x hx => exact ⟨x, hx, mem_b2j h⟩
  next => simp at h

theorem sorted_indicesOf (b : List α) (x : α) :
    (indicesOf b x).Sorted (· < ·) :=
  (List.pairwise_lt_range b.length).filter _

theorem sorted_b2j (b : List α) (x : α) : (b2j b x).Sorted (· < ·) := by
  unfold b2j
  split
  · exact List.sorted_nil
  · exact sorted_indicesOf b x

theorem sorted_jsAt (a b : List α) (i : Nat) : (jsAt a b i).Sorted (· < ·) := by
  unfold jsAt
  split
  · exact sorted_b2j b _
  · exact List.sorted_nil

theorem matchAt_true {a b : List α} {i j : Nat} (h : matchAt a b i j = true) :
    ∃ x, a.get? i = some x ∧ b.get? j = some x := by
  unfold matchAt at h
  split at h
  next x y hx hy =>
    exact ⟨x, hx, by rw [hy, decide_eq_true_eq.mp h]⟩
  next => simp at h

theorem runLen_sound (a b : List α) (alo blo bhi : Nat) :
    ∀ i j, alo ≤ i → 0 < runLen a b alo blo bhi i j →
      blo ≤ j ∧ j < bhi ∧
      runLen a b alo blo bhi i j ≤ i + 1 - alo ∧
      runLen a b alo blo bhi i j ≤ j + 1 - blo ∧
      sl a (i + 1 - runLen a b alo blo bhi i j) (i + 1)
        = sl b (j + 1 - runLen a b alo blo bhi i j) (j + 1) := by
  intro i
  induction i using Nat.strong_induction_on with
  | _ i IH =>
    intro j hai hpos
    by_cases hc : j ∈ jsAt a b i ∧ blo ≤ j ∧ j < bhi
    · have hk : runLen a b alo blo bhi i j
          = (if _ : i ≤ alo ∨ j = 0 then 0
             else runLen a b alo blo bhi (i - 1) (j - 1)) + 1 := by
        rw [runLen, if_pos hc]
      obtain ⟨hj, hblo, hbhi⟩ := hc
      obtain ⟨x, hx1, hx2⟩ := mem_jsAt hj
      refine ⟨hblo, hbhi, ?_⟩
      by_cases hbase : i ≤ alo ∨ j = 0
      · rw [hk, dif_pos hbase]
        refine ⟨by omega, by omega, ?_⟩
        have e1 : i + 1 - (0 + 1) = i := by omega
        have e2 : j + 1 - (0 + 1) = j := by omega
        rw [e1, e2, sl_one a hx1, sl_one b hx2]
      · push_neg at hbase
        obtain ⟨hialo, hj0⟩ := hbase
        rw [hk, dif_neg (by omega)]
        by_cases hz : runLen a b alo blo bhi (i - 1) (j - 1) = 0
        · rw [hz]
          refine ⟨by omega, by omega, ?_⟩
          have e1 : i + 1 - (0 + 1) = i := by omega
          have e2 : j + 1 - (0 + 1) = j := by omega
          rw [e1, e2, sl_one a hx1, sl_one b hx2]
        · have hpos' : 0 < runLen a b alo blo bhi (i - 1) (j - 1) := by omega
          obtain ⟨hb1, hb2, hr1, hr2, hsl⟩ :=
            IH (i - 1) (by omega) (j - 1) (by omega) hpos'
          have hi1 : i - 1 + 1 = i := by omega
          have hj1 : j - 1 + 1 = j := by omega
          rw [hi1, hj1] at hsl
          set r := runLen a b alo blo bhi (i - 1) (j - 1) with hr
          refine ⟨by omega, by omega, ?_⟩
          have e1 : i + 1 - (r + 1) = i - r := by omega
          have e2 : j + 1 - (r + 1) = j - r := by omega
          rw [e1, e2,
              sl_snoc a (by omega : i - r ≤ i) hx1,
              sl_snoc b (by omega : j - r ≤ j) hx2, hsl]
    · rw [runLen, if_neg hc] at hpos
      omega

end Difflib

namespace Difflib

variable {α : Type} [DecidableEq α]

/-- The value the inner loop records for an in-window entry `j`. -/
theorem innerJ_fst (i blo bhi : Nat) (j2old : Nat → Nat) :
    ∀ (js : List Nat) (nz : Nat → Nat) (best : Best), js.Sorted (· < ·) →
    (innerJ i blo bhi j2old js nz best).1 = fun j' =>
      if j' ∈ js ∧ blo ≤ j' ∧ j' < bhi
      then (if j' = 0 then 0 else j2old (j' - 1)) + 1
      else nz j' := by
  intro js
  induction js with
  | nil =>
    intro nz best _
    funext j'
    simp [innerJ]
  | cons j rest IH =>
    intro nz best hs
    have hs' : rest.Sorted (· < ·) := (List.pairwise_cons.mp hs).2
    have hjlt : ∀ y ∈ rest, j < y := (List.pairwise_cons.mp hs).1
    simp only [innerJ]
    by_cases h1 : j < blo
    · rw [if_pos h1, IH _ _ hs']
      funext j'
      by_cases hm : j' ∈ rest ∧ blo ≤ j' ∧ j' < bhi
      · have hmc : j' ∈ j :: rest ∧ blo ≤ j' ∧ j' < bhi :=
          ⟨List.mem_cons_of_mem _ hm.1, hm.2⟩
        rw [if_pos hm, if_pos hmc]
      · rw [if_neg hm]
        by_cases hm2 : j' ∈ j :: rest ∧ blo ≤ j' ∧ j' < bhi
        · exfalso
          rcases List.mem_cons.mp hm2.1 with rfl | hmem
          · omega
          · exact hm ⟨hmem, hm2.2⟩
        · rw [if_neg hm2]
    · rw [if_neg h1]
      by_cases h2 : bhi ≤ j
      · rw [if_pos h2]
        funext j'
        by_cases hm2 : j' ∈ j :: rest ∧ blo ≤ j' ∧ j' < bhi
        · exfalso
          rcases List.mem_cons.mp hm2.1 with rfl | hmem
          · omega
          · have := hjlt _ hmem
            omega
        · rw [if_neg hm2]
      · rw [if_neg h2, IH _ _ hs']
        funext j'
        by_cases hm : j' ∈ rest ∧ blo ≤ j' ∧ j' < bhi
        · have hmc : j' ∈ j :: rest ∧ blo ≤ j' ∧ j' < bhi :=
            ⟨List.mem_cons_of_mem _ hm.1, hm.2⟩
          rw [if_pos hm, if_pos hmc]
        · rw [if_neg hm]
          by_cases hm2 : j' ∈ j :: rest ∧ blo ≤ j' ∧ j' < bhi
          · rcases List.mem_cons.mp hm2.1 with rfl | hmem
            · rw [if_pos hm2]
              simp
            · exact absurd ⟨hmem, hm2.2⟩ hm
          · rw [if_neg hm2]
            by_cases hj' : j' = j
            · subst hj'
              exfalso
              exact hm2 ⟨List.mem_cons_self _ _, by omega, by omega⟩
            · simp [hj']

/-- Any property of the best match preserved by every candidate update is
preserved by the inner loop. -/
theorem innerJ_snd (i blo bhi : Nat) (j2old : Nat → Nat) (P : Best → Prop) :
    ∀ (js : List Nat) (nz : Nat → Nat) (best : Best),
    (∀ j ∈ js, blo ≤ j → j < bhi →
      P ⟨i + 1 - ((if j = 0 then 0 else j2old (j - 1)) + 1),
         j + 1 - ((if j = 0 then 0 else j2old (j - 1)) + 1),
         (if j = 0 then 0 else j2old (j - 1)) + 1⟩) →
    P best → P (innerJ i blo bhi j2old js nz best).2 := by
  intro js
  induction js with
  | nil =>
    intro nz best _ hbest
    simpa [innerJ] using hbest
  | cons j rest IH =>
    intro nz best hcand hbest
    simp only [innerJ]
    by_cases h1 : j < blo
    · rw [if_pos h1]
      exact IH _ _ (fun j' hj' => hcand j' (List.mem_cons_of_mem _ hj')) hbest
    · rw [if_neg h1]
      by_cases h2 : bhi ≤ j
      · rw [if_pos h2]
        exact hbest
      · rw [if_neg h2]
        refine IH _ _ (fun j' hj' => hcand j' (List.mem_cons_of_mem _ hj')) ?_
        by_cases hupd : best.size < (if j = 0 then 0 else j2old (j - 1)) + 1
        · rw [if_pos hupd]
          exact hcand j (List.mem_cons_self _ _) (by omega) (by omega)
        · rw [if_neg hupd]
          exact hbest

/-- Any property holding of the initial best and of every genuine-run
candidate within the scanned range is preserved by the outer loop. -/
theorem outerI_sound (a b : List α) (alo blo bhi hi : Nat) (P : Best → Prop)
    (hcand : ∀ i j, alo ≤ i → i < hi → 0 < runLen a b alo blo bhi i j →
        blo ≤ j → j < bhi →
        P ⟨i + 1 - runLen a b alo blo bhi i j,
           j + 1 - runLen a b alo blo bhi i j,
           runLen a b alo blo bhi i j⟩) :
    ∀ (cnt start : Nat) (j2old : Nat → Nat) (best : Best),
      alo ≤ start → start + cnt ≤ hi →
      (j2old = fun j' =>
        if alo < start then runLen a b alo blo bhi (start - 1) j' else 0) →
      P best →
      P (outerI a b blo bhi (List.range' start cnt) j2old best) := by
  intro cnt
  induction cnt with
  | zero =>
    intro start j2old best _ _ _ hbest
    simpa [outerI] using hbest
  | succ n IH =>
    intro start j2old best hstart hhi hmap hbest
    rw [List.range'_succ]
    simp only [outerI]
    have hkv : ∀ j, j ∈ jsAt a b start → blo ≤ j → j < bhi →
        (if j = 0 then 0 else j2old (j - 1)) + 1
          = runLen a b alo blo bhi start j := by
      intro j hj hblo hbhi
      have hcnd : j ∈ jsAt a b start ∧ blo ≤ j ∧ j < bhi := ⟨hj, hblo, hbhi⟩
      rw [runLen, if_pos hcnd]
      subst hmap
      by_cases hj0 : j = 0
      · simp [hj0]
      · by_cases hsa : alo < start
        · rw [if_neg hj0, dif_neg (by omega : ¬ (start ≤ alo ∨ j = 0))]
          simp [hsa]
        · rw [if_neg hj0, dif_pos (Or.inl (by omega : start ≤ alo))]
          simp [hsa]
    refine IH (start + 1) _ _ (by omega) (by omega) ?_ ?_
    · rw [innerJ_fst _ _ _ _ _ _ _ (sorted_jsAt a b start)]
      funext j'
      by_cases hm : j' ∈ jsAt a b start ∧ blo ≤ j' ∧ j' < bhi
      · rw [if_pos hm, if_pos (by omega : alo < start + 1)]
        have : start + 1 - 1 = start := by omega
        rw [this, hkv j' hm.1 hm.2.1 hm.2.2]
      · rw [if_neg hm, if_pos (by omega : alo < start + 1)]
        have e : start + 1 - 1 = start := by omega
        rw [e, runLen, if_neg hm]
    · refine innerJ_snd _ _ _ _ P _ _ _ ?_ hbest
      intro j hj hblo hbhi
      rw [hkv j hj hblo hbhi]
      have hpos : 0 < runLen a b alo blo bhi start j := by
        rw [← hkv j hj hblo hbhi]
        omega
      exact hcand start j hstart (by omega) hpos hblo hbhi

end Difflib

namespace Difflib

variable {α : Type} [DecidableEq α]

theorem extBack_spec (a b : List α) (alo blo : Nat) :
    ∀ m : Best, alo ≤ m.i → blo ≤ m.j →
      sl a m.i (m.i + m.size) = sl b m.j (m.j + m.size) →
      alo ≤ (extBack a b alo blo m).i ∧ blo ≤ (extBack a b alo blo m).j ∧
      (extBack a b alo blo m).i + (extBack a b alo blo m).size = m.i + m.size ∧
      (extBack a b alo blo m).j + (extBack a b alo blo m).size = m.j + m.size ∧
      sl a (extBack a b alo blo m).i
          ((extBack a b alo blo m).i + (extBack a b alo blo m).size)
        = sl b (extBack a b alo blo m).j
          ((extBack a b alo blo m).j + (extBack a b alo blo m).size) := by
  have key : ∀ n (m : Best), m.i = n → (alo ≤ m.i → blo ≤ m.j →
      sl a m.i (m.i + m.size) = sl b m.j (m.j + m.size) →
      alo ≤ (extBack a b alo blo m).i ∧ blo ≤ (extBack a b alo blo m).j ∧
      (extBack a b alo blo m).i + (extBack a b alo blo m).size = m.i + m.size ∧
      (extBack a b alo blo m).j + (extBack a b alo blo m).size = m.j + m.size ∧
      sl a (extBack a b alo blo m).i
          ((extBack a b alo blo m).i + (extBack a b alo blo m).size)
        = sl b (extBack a b alo blo m).j
          ((extBack a b alo blo m).j + (extBack a b alo blo m).size)) := by
    intro n
    induction n using Nat.strong_induction_on with
    | _ n IH =>
      intro m hn
      obtain ⟨i, j, k⟩ := m
      simp only at hn ⊢
      subst hn
      rw [extBack]
      by_cases h : alo < i ∧ blo < j ∧ matchAt a b (i - 1) (j - 1) = true
      · rw [dif_pos h]
        intro hai hbj hsl
        obtain ⟨h1, h2, h3⟩ := h
        obtain ⟨x, hx1, hx2⟩ := matchAt_true h3
        have hslx : sl a (i - 1) (i - 1 + (k + 1)) = sl b (j - 1) (j - 1 + (k + 1)) := by
          have e1 : i - 1 + (k + 1) = i + k := by omega
          have e2 : j - 1 + (k + 1) = j + k := by omega
          rw [e1, e2, sl_cons a (by omega : i - 1 < i + k) hx1,
            sl_cons b (by omega : j - 1 < j + k) hx2]
          have e3 : i - 1 + 1 = i := by omega
          have e4 : j - 1 + 1 = j := by omega
          rw [e3, e4, hsl]
        have hrec := IH (i - 1) (by omega) ⟨i - 1, j - 1, k + 1⟩ rfl
          (show alo ≤ i - 1 by omega) (show blo ≤ j - 1 by omega) hslx
        simp only at hrec
        refine ⟨hrec.1, hrec.2.1, by omega, by omega, ?_⟩
        rw [hrec.2.2.2.2]
      · rw [dif_neg h]
        intro hai hbj hsl
        exact ⟨hai, hbj, rfl, rfl, hsl⟩
  exact fun m => key m.i m rfl

theorem extFwd_spec (a b : List α) (ahi bhi : Nat) :
    ∀ m : Best, m.i + m.size ≤ ahi → m.j + m.size ≤ bhi →
      sl a m.i (m.i + m.size) = sl b m.j (m.j + m.size) →
      (extFwd a b ahi bhi m).i = m.i ∧ (extFwd a b ahi bhi m).j = m.j ∧
      (extFwd a b ahi bhi m).i + (extFwd a b ahi bhi m).size ≤ ahi ∧
      (extFwd a b ahi bhi m).j + (extFwd a b ahi bhi m).size ≤ bhi ∧
      sl a (extFwd a b ahi bhi m).i
          ((extFwd a b ahi bhi m).i + (extFwd a b ahi bhi m).size)
        = sl b (extFwd a b ahi bhi m).j
          ((extFwd a b ahi bhi m).j + (extFwd a b ahi bhi m).size) := by
  have key : ∀ n (m : Best), ahi - (m.i + m.size) = n →
      (m.i + m.size ≤ ahi → m.j + m.size ≤ bhi →
      sl a m.i (m.i + m.size) = sl b m.j (m.j + m.size) →
      (extFwd a b ahi bhi m).i = m.i ∧ (extFwd a b ahi bhi m).j = m.j ∧
      (extFwd a b ahi bhi m).i + (extFwd a b ahi bhi m).size ≤ ahi ∧
      (extFwd a b ahi bhi m).j + (extFwd a b ahi bhi m).size ≤ bhi ∧
      sl a (extFwd a b ahi bhi m).i
          ((extFwd a b ahi bhi m).i + (extFwd a b ahi bhi m).size)
        = sl b (extFwd a b ahi bhi m).j
          ((extFwd a b ahi bhi m).j + (extFwd a b ahi bhi m).size)) := by
    intro n
    induction n using Nat.strong_induction_on with
    | _ n IH =>
      intro m hn
      obtain ⟨i, j, k⟩ := m
      simp only at hn ⊢
      rw [extFwd]
      by_cases h : i + k < ahi ∧ j + k < bhi ∧ matchAt a b (i + k) (j + k) = true
      · rw [dif_pos h]
        intro hai hbj hsl
        obtain ⟨h1, h2, h3⟩ := h
        obtain ⟨x, hx1, hx2⟩ := matchAt_true h3
        have hslx : sl a i (i + (k + 1)) = sl b j (j + (k + 1)) := by
          have e1 : i + (k + 1) = (i + k) + 1 := by omega
          have e2 : j + (k + 1) = (j + k) + 1 := by omega
          rw [e1, e2, sl_snoc a (by omega : i ≤ i + k) hx1,
            sl_snoc b (by omega : j ≤ j + k) hx2, hsl]
        have hrec := IH (ahi - (i + (k + 1))) (by omega) ⟨i, j, k + 1⟩ rfl
          (show i + (k + 1) ≤ ahi by omega) (show j + (k + 1) ≤ bhi by omega) hslx
        simp only at hrec
        exact ⟨hrec.1, hrec.2.1, hrec.2.2.1, hrec.2.2.2.1, hrec.2.2.2.2⟩
      · rw [dif_neg h]
        intro hai hbj hsl
        exact ⟨rfl, rfl, hai, hbj, hsl⟩
  exact fun m => key (ahi - (m.i + m.size)) m rfl

theorem flm_sound (a b : List α) (alo ahi blo bhi : Nat)
    (h1 : alo ≤ ahi) (h2 : blo ≤ bhi) :
    alo ≤ (find_longest_match a b alo ahi blo bhi).i ∧
    blo ≤ (find_longest_match a b alo ahi blo bhi).j ∧
    (find_longest_match a b alo ahi blo bhi).i
      + (find_longest_match a b alo ahi blo bhi).size ≤ ahi ∧
    (find_longest_match a b alo ahi blo bhi).j
      + (find_longest_match a b alo ahi blo bhi).size ≤ bhi ∧
    sl a (find_longest_match a b alo ahi blo bhi).i
        ((find_longest_match a b alo ahi blo bhi).i
          + (find_longest_match a b alo ahi blo bhi).size)
      = sl b (find_longest_match a b alo ahi blo bhi).j
        ((find_longest_match a b alo ahi blo bhi).j
          + (find_longest_match a b alo ahi blo bhi).size) := by
  unfold find_longest_match
  set P : Best → Prop := fun m =>
    alo ≤ m.i ∧ blo ≤ m.j ∧ m.i + m.size ≤ ahi ∧ m.j + m.size ≤ bhi ∧
    sl a m.i (m.i + m.size) = sl b m.j (m.j + m.size) with hP
  have houter : P (outerI a b blo bhi (List.range' alo (ahi - alo))
      (fun _ => 0) ⟨alo, blo, 0⟩) := by
    refine outerI_sound a b alo blo bhi ahi P ?_ (ahi - alo) alo _ _
      (le_refl alo) (by omega) ?_ ?_
    · intro i j hai hlt hpos hblo hbhi
      obtain ⟨hb1, hb2, hr1, hr2, hsl⟩ := runLen_sound a b alo blo bhi i j hai hpos
      set r := runLen a b alo blo bhi i j
      refine ⟨show alo ≤ i + 1 - r by omega, show blo ≤ j + 1 - r by omega,
        show i + 1 - r + r ≤ ahi by omega, show j + 1 - r + r ≤ bhi by omega, ?_⟩
      show sl a (i + 1 - r) (i + 1 - r + r) = sl b (j + 1 - r) (j + 1 - r + r)
      have e1 : i + 1 - r + r = i + 1 := by omega
      have e2 : j + 1 - r + r = j + 1 := by omega
      rw [e1, e2]
      exact hsl
    · funext j'
      rw [if_neg (by omega : ¬ alo < alo)]
    · exact ⟨le_refl _, le_refl _, show alo + 0 ≤ ahi by omega,
        show blo + 0 ≤ bhi by omega, by simp [sl]⟩
  set m0 := outerI a b blo bhi (List.range' alo (ahi - alo)) (fun _ => 0)
    ⟨alo, blo, 0⟩
  obtain ⟨p1, p2, p3, p4, p5⟩ := houter
  obtain ⟨q1, q2, q3, q4, q5⟩ := extBack_spec a b alo blo m0 p1 p2 p5
  obtain ⟨r1, r2, r3, r4, r5⟩ := extFwd_spec a b ahi bhi (extBack a b alo blo m0)
    (by rw [q3]; exact p3) (by rw [q4]; exact p4) q5
  exact ⟨by rw [r1]; exact q1, by rw [r2]; exact q2, r3, r4, r5⟩

end Difflib

namespace Difflib

variable {α : Type} [DecidableEq α]

theorem chain_le {a b : List α} :
    ∀ (ms : List Best) (s e : Nat × Nat), Chain a b s ms e →
      s.1 ≤ e.1 ∧ s.2 ≤ e.2 := by
  intro ms
  induction ms with
  | nil => intro s e h; exact h
  | cons m rest IH =>
    intro s e h
    obtain ⟨h1, h2, _, _, hrest⟩ := h
    have := IH _ _ hrest
    exact ⟨by omega, by omega⟩

theorem chain_mono {a b : List α} :
    ∀ (ms : List Best) (s s' e : Nat × Nat), s'.1 ≤ s.1 → s'.2 ≤ s.2 →
      Chain a b s ms e → Chain a b s' ms e := by
  intro ms
  cases ms with
  | nil =>
    intro s s' e hm1 hm2 h
    obtain ⟨k1, k2⟩ := h
    exact ⟨by omega, by omega⟩
  | cons m rest =>
    intro s s' e hm1 hm2 h
    obtain ⟨h1, h2, h3, h4, h5⟩ := h
    exact ⟨by omega, by omega, h3, h4, h5⟩

theorem chain_append {a b : List α} :
    ∀ (L1 L2 : List Best) (s t e : Nat × Nat),
      Chain a b s L1 t → Chain a b t L2 e → Chain a b s (L1 ++ L2) e := by
  intro L1
  induction L1 with
  | nil =>
    intro L2 s t e h1 h2
    exact chain_mono L2 t s e h1.1 h1.2 h2
  | cons m rest IH =>
    intro L2 s t e h1 h2
    obtain ⟨ha, hb, hc, hd, he⟩ := h1
    exact ⟨ha, hb, hc, hd, IH L2 _ t e he h2⟩

theorem blocksRec_chain (a b : List α) :
    ∀ (fuel alo ahi blo bhi : Nat),
      (ahi - alo) + (bhi - blo) ≤ fuel → alo ≤ ahi → blo ≤ bhi →
      Chain a b (alo, blo) (blocksRec a b alo ahi blo bhi) (ahi, bhi) := by
  intro fuel
  induction fuel with
  | zero =>
    intro alo ahi blo bhi hf h1 h2
    have e1 : ahi = alo := by omega
    have e2 : bhi = blo := by omega
    rw [blocksRec]
    by_cases hguard : 0 < (find_longest_match a b alo ahi blo bhi).size ∧
        alo ≤ (find_longest_match a b alo ahi blo bhi).i ∧
        (find_longest_match a b alo ahi blo bhi).i
          + (find_longest_match a b alo ahi blo bhi).size ≤ ahi ∧
        blo ≤ (find_longest_match a b alo ahi blo bhi).j ∧
        (find_longest_match a b alo ahi blo bhi).j
          + (find_longest_match a b alo ahi blo bhi).size ≤ bhi
    · exfalso; omega
    · rw [dif_neg hguard]
      exact ⟨h1, h2⟩
  | succ n IH =>
    intro alo ahi blo bhi hf h1 h2
    rw [blocksRec]
    obtain ⟨s1, s2, s3, s4, s5⟩ := flm_sound a b alo ahi blo bhi h1 h2
    by_cases hguard : 0 < (find_longest_match a b alo ahi blo bhi).size ∧
        alo ≤ (find_longest_match a b alo ahi blo bhi).i ∧
        (find_longest_match a b alo ahi blo bhi).i
          + (find_longest_match a b alo ahi blo bhi).size ≤ ahi ∧
        blo ≤ (find_longest_match a b alo ahi blo bhi).j ∧
        (find_longest_match a b alo ahi blo bhi).j
          + (find_longest_match a b alo ahi blo bhi).size ≤ bhi
    · rw [dif_pos hguard]
      set m := find_longest_match a b alo ahi blo bhi
      have hL : Chain a b (alo, blo)
          (if alo < m.i ∧ blo < m.j then blocksRec a b alo m.i blo m.j else [])
          (m.i, m.j) := by
        by_cases hc : alo < m.i ∧ blo < m.j
        · rw [if_pos hc]
          exact IH alo m.i blo m.j (by omega) (by omega) (by omega)
        · rw [if_neg hc]
          exact ⟨s1, s2⟩
      have hR : Chain a b (m.i + m.size, m.j + m.size)
          (if m.i + m.size < ahi ∧ m.j + m.size < bhi then
            blocksRec a b (m.i + m.size) ahi (m.j + m.size) bhi else [])
          (ahi, bhi) := by
        by_cases hc : m.i + m.size < ahi ∧ m.j + m.size < bhi
        · rw [if_pos hc]
          exact IH (m.i + m.size) ahi (m.j + m.size) bhi (by omega) (by omega)
            (by omega)
        · rw [if_neg hc]
          exact ⟨s3, s4⟩
      exact chain_append _ _ _ (m.i, m.j) _ hL
        ⟨le_refl _, le_refl _, hguard.1, s5, hR⟩
    · rw [dif_neg hguard]
      exact ⟨h1, h2⟩

theorem mergeAdj_chain {a b : List α} :
    ∀ (ms : List Best) (acc : Best) (s e : Nat × Nat),
      s.1 ≤ acc.i → s.2 ≤ acc.j →
      sl a acc.i (acc.i + acc.size) = sl b acc.j (acc.j + acc.size) →
      Chain a b (acc.i + acc.size, acc.j + acc.size) ms e →
      Chain a b s (mergeAdj acc ms) e := by
  intro ms
  induction ms with
  | nil =>
    intro acc s e hs1 hs2 hsl hch
    obtain ⟨he1, he2⟩ := hch
    simp only [mergeAdj]
    by_cases hz : acc.size ≠ 0
    · rw [if_pos hz]
      exact ⟨hs1, hs2, by omega, hsl, he1, he2⟩
    · rw [if_neg hz]
      push_neg at hz
      refine ⟨by omega, by omega⟩
  | cons m rest IH =>
    intro acc s e hs1 hs2 hsl hch
    obtain ⟨h1, h2, h3, h4, h5⟩ := hch
    simp only [mergeAdj]
    by_cases hm : acc.i + acc.size = m.i ∧ acc.j + acc.size = m.j
    · rw [if_pos hm]
      refine IH ⟨acc.i, acc.j, acc.size + m.size⟩ s e hs1 hs2 ?_ ?_
      · show sl a acc.i (acc.i + (acc.size + m.size))
          = sl b acc.j (acc.j + (acc.size + m.size))
        have e1 : acc.i + (acc.size + m.size) = m.i + m.size := by omega
        have e2 : acc.j + (acc.size + m.size) = m.j + m.size := by omega
        rw [e1, e2, sl_append a (by omega : acc.i ≤ m.i) (by omega : m.i ≤ m.i + m.size),
          sl_append b (by omega : acc.j ≤ m.j) (by omega : m.j ≤ m.j + m.size)]
        rw [hm.1, hm.2] at hsl
        rw [hsl, h4]
      · show Chain a b (acc.i + (acc.size + m.size), acc.j + (acc.size + m.size)) rest e
        have e1 : acc.i + (acc.size + m.size) = m.i + m.size := by omega
        have e2 : acc.j + (acc.size + m.size) = m.j + m.size := by omega
        rw [e1, e2]
        exact h5
    · rw [if_neg hm]
      by_cases hz : acc.size ≠ 0
      · rw [if_pos hz]
        refine List.singleton_append ▸ ⟨hs1, hs2, by omega, hsl, ?_⟩
        exact IH m _ e h1 h2 h4 h5
      · rw [if_neg hz]
        push_neg at hz
        simp only [List.nil_append]
        refine IH m _ e ?_ ?_ h4 h5
        · omega
        · omega

theorem gmb_chain (a b : List α) :
    Chain a b (0, 0) (mergeAdj ⟨0, 0, 0⟩ (blocksRec a b 0 a.length 0 b.length))
      (a.length, b.length) := by
  refine mergeAdj_chain _ ⟨0, 0, 0⟩ (0, 0) _ (le_refl _) (le_refl _) ?_ ?_
  · simp [sl]
  · show Chain a b (0 + 0, 0 + 0) _ _
    simpa using blocksRec_chain a b (a.length + b.length) 0 a.length 0 b.length
      (by omega) (by omega) (by omega)

theorem opcodesAux_rt {a b : List α} :
    ∀ (ms : List Best) (x y : Nat), Chain a b (x, y) ms (a.length, b.length) →
      ((opcodesAux x y (ms ++ [⟨a.length, b.length, 0⟩])).flatMap
          (opNewTokens a b)) = sl b y b.length ∧
      ((opcodesAux x y (ms ++ [⟨a.length, b.length, 0⟩])).flatMap
          (opOldTokens a b)) = sl a x a.length := by
  intro ms
  induction ms with
  | nil =>
    intro x y hch
    obtain ⟨hx, hy⟩ := hch
    simp only [List.nil_append, opcodesAux, List.flatMap_append]
    by_cases hc1 : x < a.length ∧ y < b.length
    · rw [if_pos hc1]
      simp [opNewTokens, opOldTokens, opcodesAux]
    · rw [if_neg hc1]
      by_cases hc2 : x < a.length
      · rw [if_pos hc2]
        have hyl : y = b.length := by omega
        subst hyl
        simp [opNewTokens, opOldTokens, opcodesAux, sl_nil]
      · rw [if_neg hc2]
        have hxl : x = a.length := by omega
        subst hxl
        by_cases hc3 : y < b.length
        · rw [if_pos hc3]
          simp [opNewTokens, opOldTokens, opcodesAux, sl_nil]
        · rw [if_neg hc3]
          have hyl : y = b.length := by omega
          subst hyl
          simp [opcodesAux, sl_nil]
  | cons m rest IH =>
    intro x y hch
    obtain ⟨h1, h2, h3, h4, h5⟩ := hch
    have hle := chain_le rest _ _ h5
    simp only at hle
    have hrec := IH (m.i + m.size) (m.j + m.size) h5
    simp only [List.cons_append, opcodesAux, List.flatMap_append]
    rw [if_pos h3]
    have hgapN : ∀ (ops : List Op), ops
        = (if x < m.i ∧ y < m.j then [⟨Tag.replace, x, m.i, y, m.j⟩]
           else if x < m.i then [⟨Tag.delete, x, m.i, y, m.j⟩]
           else if y < m.j then [⟨Tag.insert, x, m.i, y, m.j⟩]
           else []) →
        (ops.flatMap (opNewTokens a b) = sl b y m.j ∧
         ops.flatMap (opOldTokens a b) = sl a x m.i) := by
      intro ops hops
      subst hops
      by_cases hc1 : x < m.i ∧ y < m.j
      · rw [if_pos hc1]; simp [opNewTokens, opOldTokens]
      · rw [if_neg hc1]
        by_cases hc2 : x < m.i
        · rw [if_pos hc2]
          have : y = m.j := by omega
          subst this
          simp [opNewTokens, opOldTokens, sl_nil]
        · rw [if_neg hc2]
          have hxm : x = m.i := by omega
          subst hxm
          by_cases hc3 : y < m.j
          · rw [if_pos hc3]; simp [opNewTokens, opOldTokens, sl_nil]
          · rw [if_neg hc3]
            have : y = m.j := by omega
            subst this
            simp [sl_nil]
    obtain ⟨hgN, hgO⟩ := hgapN _ rfl
    constructor
    · rw [hgN]
      simp only [List.flatMap_cons, List.flatMap_nil, List.append_nil,
        List.append_eq]
      rw [hrec.1]
      have heq : opNewTokens a b ⟨Tag.equal, m.i, m.i + m.size, m.j, m.j + m.size⟩
          = sl b m.j (m.j + m.size) := h4
      rw [heq,
        ← sl_append b (by omega : y ≤ m.j) (by omega : m.j ≤ m.j + m.size),
        ← sl_append b (by omega : y ≤ m.j + m.size)
          (by omega : m.j + m.size ≤ b.length)]
    · rw [hgO]
      simp only [List.flatMap_cons, List.flatMap_nil, List.append_nil,
        List.append_eq]
      rw [hrec.2]
      have heq : opOldTokens a b ⟨Tag.equal, m.i, m.i + m.size, m.j, m.j + m.size⟩
          = sl a m.i (m.i + m.size) := rfl
      rw [heq,
        ← sl_append a (by omega : x ≤ m.i) (by omega : m.i ≤ m.i + m.size),
        ← sl_append a (by omega : x ≤ m.i + m.size)
          (by omega : m.i + m.size ≤ a.length)]

/-- Round trip of `get_opcodes`: the revised-side token spans concatenate to
`b`, the original-side spans to `a`. -/
theorem get_opcodes_rt (a b : List α) :
    ((get_opcodes a b).flatMap (opNewTokens a b)) = b ∧
    ((get_opcodes a b).flatMap (opOldTokens a b)) = a := by
  unfold get_opcodes get_matching_blocks
  have := opcodesAux_rt (a := a) (b := b)
    (mergeAdj ⟨0, 0, 0⟩ (blocksRec a b 0 a.length 0 b.length)) 0 0 (gmb_chain a b)
  rw [this.1, this.2, sl_len, sl_len]
  exact ⟨rfl, rfl⟩

end Difflib

namespace Difflib

variable {α : Type} [DecidableEq α]

theorem get_some_lt {l : List α} {i : Nat} {x : α} (h : l.get? i = some x) :
    i < l.length := by
  obtain ⟨h1, -⟩ := List.get?_eq_some.mp h
  exact h1

theorem get_self {l : List α} {i : Nat} (h : i < l.length) :
    l.get? i = some (l.get ⟨i, h⟩) :=
  List.get?_eq_some.mpr ⟨h, rfl⟩

theorem matchAt_self {a : List α} {i : Nat} (h : i < a.length) :
    matchAt a a i i = true := by
  unfold matchAt
  rw [get_self h]
  simp

theorem b2j_mem_of_get {b : List α} {x : α} {j j' : Nat}
    (hne : j' ∈ b2j b x) (h : b.get? j = some x) : j ∈ b2j b x := by
  unfold b2j at hne ⊢
  split at hne
  · simp at hne
  next hcond =>
    rw [if_neg hcond]
    exact mem_indicesOf.mpr h

/-- On a self-comparison the `b2j` entry of `a[i]` also contains `j` itself
whenever it contains `j` for row `i`. -/
theorem jsAt_self_mem {a : List α} {i j : Nat} (h : j ∈ jsAt a a i) :
    j ∈ jsAt a a j := by
  obtain ⟨x, hx1, hx2⟩ := mem_jsAt h
  unfold jsAt at h ⊢
  rw [hx1] at h
  rw [hx2]
  exact b2j_mem_of_get h hx2

theorem jsAt_self_mem_left {a : List α} {i j : Nat} (h : j ∈ jsAt a a i) :
    i ∈ jsAt a a i := by
  obtain ⟨x, hx1, hx2⟩ := mem_jsAt h
  unfold jsAt at h ⊢
  rw [hx1] at h ⊢
  exact b2j_mem_of_get h hx1

/-- On a self-comparison, a run ending at `(i, j)` with `j ≤ i` is no longer
than the main-diagonal run ending at `(j, j)`. -/
theorem runLen_diag_right (a : List α) :
    ∀ i j, j ≤ i →
      runLen a a 0 0 a.length i j ≤ runLen a a 0 0 a.length j j := by
  intro i
  induction i using Nat.strong_induction_on with
  | _ i IH =>
    intro j hji
    by_cases hc : j ∈ jsAt a a i ∧ 0 ≤ j ∧ j < a.length
    · have hcj : j ∈ jsAt a a j ∧ 0 ≤ j ∧ j < a.length :=
        ⟨jsAt_self_mem hc.1, by omega, hc.2.2⟩
      have hL : runLen a a 0 0 a.length i j
          = (if _ : i ≤ 0 ∨ j = 0 then 0
             else runLen a a 0 0 a.length (i - 1) (j - 1)) + 1 := by
        rw [runLen, if_pos hc]
      have hR : runLen a a 0 0 a.length j j
          = (if _ : j ≤ 0 ∨ j = 0 then 0
             else runLen a a 0 0 a.length (j - 1) (j - 1)) + 1 := by
        rw [runLen, if_pos hcj]
      rw [hL, hR]
      by_cases hj0 : j = 0
      · simp [hj0]
      · by_cases hi0 : i ≤ 0
        · omega
        · rw [dif_neg (by omega : ¬ (i ≤ 0 ∨ j = 0)),
            dif_neg (by omega : ¬ (j ≤ 0 ∨ j = 0))]
          have := IH (i - 1) (by omega) (j - 1) (by omega)
          omega
    · have hL : runLen a a 0 0 a.length i j = 0 := by
        rw [runLen, if_neg hc]
      omega

/-- On a self-comparison, a run ending at `(i, j)` with `i ≤ j` is no longer
than the main-diagonal run ending at `(i, i)`. -/
theorem runLen_diag_left (a : List α) :
    ∀ i j, i ≤ j →
      runLen a a 0 0 a.length i j ≤ runLen a a 0 0 a.length i i := by
  intro i
  induction i using Nat.strong_induction_on with
  | _ i IH =>
    intro j hij
    by_cases hc : j ∈ jsAt a a i ∧ 0 ≤ j ∧ j < a.length
    · have hil : i < a.length := by
        obtain ⟨x, hx1, hx2⟩ := mem_jsAt hc.1
        exact get_some_lt hx1
      have hci : i ∈ jsAt a a i ∧ 0 ≤ i ∧ i < a.length :=
        ⟨jsAt_self_mem_left hc.1, by omega, hil⟩
      have hL : runLen a a 0 0 a.length i j
          = (if _ : i ≤ 0 ∨ j = 0 then 0
             else runLen a a 0 0 a.length (i - 1) (j - 1)) + 1 := by
        rw [runLen, if_pos hc]
      have hR : runLen a a 0 0 a.length i i
          = (if _ : i ≤ 0 ∨ i = 0 then 0
             else runLen a a 0 0 a.length (i - 1) (i - 1)) + 1 := by
        rw [runLen, if_pos hci]
      rw [hL, hR]
      by_cases hi0 : i ≤ 0
      · have hi00 : i = 0 := by omega
        subst hi00
        simp
      · rw [dif_neg (by omega : ¬ (i ≤ 0 ∨ j = 0)),
          dif_neg (by omega : ¬ (i ≤ 0 ∨ i = 0))]
        have := IH (i - 1) (by omega) (j - 1) (by omega)
        omega
    · have hL : runLen a a 0 0 a.length i j = 0 := by
        rw [runLen, if_neg hc]
      omega

/-- On a self-comparison the inner loop keeps the best match on the main
diagonal, never shrinks it, and ends at least as large as every run of the
processed row. -/
theorem innerJ_noop (a : List α) (i : Nat) (j2old : Nat → Nat) :
    ∀ (js : List Nat) (nz : Nat → Nat) (best : Best),
      js.Sorted (· < ·) →
      (∀ j ∈ js, j < a.length) →
      (∀ j ∈ js, (if j = 0 then 0 else j2old (j - 1)) + 1
        = runLen a a 0 0 a.length i j) →
      (∀ j ∈ js, j < i → runLen a a 0 0 a.length i j ≤ best.size) →
      (∀ j ∈ js, i < j → runLen a a 0 0 a.length i j
        ≤ runLen a a 0 0 a.length i i) →
      best.i = best.j →
      (i ∈ js ∨ runLen a a 0 0 a.length i i ≤ best.size) →
      (innerJ i 0 a.length j2old js nz best).2.i
          = (innerJ i 0 a.length j2old js nz best).2.j ∧
      best.size ≤ (innerJ i 0 a.length j2old js nz best).2.size ∧
      (∀ j ∈ js, runLen a a 0 0 a.length i j
        ≤ (innerJ i 0 a.length j2old js nz best).2.size) := by
  intro js
  induction js with
  | nil =>
    intro nz best _ _ _ _ _ hdiag _
    refine ⟨hdiag, le_refl _, ?_⟩
    intro j hj
    simp at hj
  | cons j rest IH =>
    intro nz best hs hwin hkv hlt hii hdiag h5
    have hs' : rest.Sorted (· < ·) := (List.pairwise_cons.mp hs).2
    have hjlt : ∀ y ∈ rest, j < y := (List.pairwise_cons.mp hs).1
    have hjn : j < a.length := hwin j (List.mem_cons_self _ _)
    simp only [innerJ]
    rw [if_neg (by omega : ¬ j < 0), if_neg (by omega : ¬ a.length ≤ j)]
    have hkvj := hkv j (List.mem_cons_self _ _)
    rcases Nat.lt_trichotomy j i with hcase | hcase | hcase
    · have hle : runLen a a 0 0 a.length i j ≤ best.size :=
        hlt j (List.mem_cons_self _ _) hcase
      rw [if_neg (by omega : ¬ best.size < (if j = 0 then 0 else j2old (j - 1)) + 1)]
      have h5' : i ∈ rest ∨ runLen a a 0 0 a.length i i ≤ best.size := by
        rcases h5 with h5 | h5
        · rcases List.mem_cons.mp h5 with rfl | h5
          · omega
          · exact Or.inl h5
        · exact Or.inr h5
      obtain ⟨c1, c2, c3⟩ := IH _ best hs'
        (fun j' hj' => hwin j' (List.mem_cons_of_mem _ hj'))
        (fun j' hj' => hkv j' (List.mem_cons_of_mem _ hj'))
        (fun j' hj' => hlt j' (List.mem_cons_of_mem _ hj'))
        (fun j' hj' => hii j' (List.mem_cons_of_mem _ hj'))
        hdiag h5'
      refine ⟨c1, c2, ?_⟩
      intro j' hj'
      rcases List.mem_cons.mp hj' with rfl | hj'
      · omega
      · exact c3 j' hj'
    · subst hcase
      set k := (if j = 0 then 0 else j2old (j - 1)) + 1 with hkdef
      set best' : Best := if best.size < k then ⟨j + 1 - k, j + 1 - k, k⟩ else best
        with hbdef
      have hdiag' : best'.i = best'.j := by
        rw [hbdef]
        split
        · rfl
        · exact hdiag
      have hsize' : best.size ≤ best'.size ∧ runLen a a 0 0 a.length j j ≤ best'.size := by
        rw [hbdef]
        split
        · constructor
          · show best.size ≤ k
            omega
          · show runLen a a 0 0 a.length j j ≤ k
            omega
        · constructor
          · exact le_refl _
          · omega
      have hlt' : ∀ j' ∈ rest, j' < j → runLen a a 0 0 a.length j j' ≤ best'.size := by
        intro j' hj' hj'lt
        exact absurd (hjlt j' hj') (by omega)
      obtain ⟨c1, c2, c3⟩ := IH _ best' hs'
        (fun j' hj' => hwin j' (List.mem_cons_of_mem _ hj'))
        (fun j' hj' => hkv j' (List.mem_cons_of_mem _ hj'))
        hlt'
        (fun j' hj' => hii j' (List.mem_cons_of_mem _ hj'))
        hdiag' (Or.inr hsize'.2)
      refine ⟨c1, by omega, ?_⟩
      intro j' hj'
      rcases List.mem_cons.mp hj' with rfl | hj'
      · omega
      · exact c3 j' hj'
    · have h5' : runLen a a 0 0 a.length i i ≤ best.size := by
        rcases h5 with h5 | h5
        · exfalso
          rcases List.mem_cons.mp h5 with h5 | h5
          · omega
          · have := hjlt i h5
            omega
        · exact h5
      have hle : runLen a a 0 0 a.length i j ≤ best.size :=
        le_trans (hii j (List.mem_cons_self _ _) hcase) h5'
      rw [if_neg (by omega : ¬ best.size < (if j = 0 then 0 else j2old (j - 1)) + 1)]
      obtain ⟨c1, c2, c3⟩ := IH _ best hs'
        (fun j' hj' => hwin j' (List.mem_cons_of_mem _ hj'))
        (fun j' hj' => hkv j' (List.mem_cons_of_mem _ hj'))
        (fun j' hj' => hlt j' (List.mem_cons_of_mem _ hj'))
        (fun j' hj' => hii j' (List.mem_cons_of_mem _ hj'))
        hdiag (Or.inr h5')
      refine ⟨c1, c2, ?_⟩
      intro j' hj'
      rcases List.mem_cons.mp hj' with rfl | hj'
      · omega
      · exact c3 j' hj'

end Difflib

namespace Difflib

variable {α : Type} [DecidableEq α]

/-- On a self-comparison the outer loop returns a best match on the main
diagonal dominating every run of the processed rows. -/
theorem outer_noop (a : List α) :
    ∀ (cnt start : Nat) (j2old : Nat → Nat) (best : Best),
      (j2old = fun j' =>
        if 0 < start then runLen a a 0 0 a.length (start - 1) j' else 0) →
      best.i = best.j →
      (∀ i' j', i' < start → runLen a a 0 0 a.length i' j' ≤ best.size) →
      (outerI a a 0 a.length (List.range' start cnt) j2old best).i
        = (outerI a a 0 a.length (List.range' start cnt) j2old best).j ∧
      best.size ≤ (outerI a a 0 a.length (List.range' start cnt) j2old best).size ∧
      (∀ i' j', i' < start + cnt →
        runLen a a 0 0 a.length i' j'
          ≤ (outerI a a 0 a.length (List.range' start cnt) j2old best).size) := by
  intro cnt
  induction cnt with
  | zero =>
    intro start j2old best hmap hdiag hprev
    simp only [List.range', outerI]
    exact ⟨hdiag, le_refl _, fun i' j' h => hprev i' j' (by omega)⟩
  | succ n IH =>
    intro start j2old best hmap hdiag hprev
    rw [List.range'_succ]
    simp only [outerI]
    have hwin : ∀ j ∈ jsAt a a start, j < a.length := by
      intro j hj
      obtain ⟨x, hx1, hx2⟩ := mem_jsAt hj
      exact get_some_lt hx2
    have hkv : ∀ j ∈ jsAt a a start,
        (if j = 0 then 0 else j2old (j - 1)) + 1
          = runLen a a 0 0 a.length start j := by
      intro j hj
      have hcnd : j ∈ jsAt a a start ∧ 0 ≤ j ∧ j < a.length :=
        ⟨hj, by omega, hwin j hj⟩
      rw [runLen, if_pos hcnd]
      subst hmap
      by_cases hj0 : j = 0
      · simp [hj0]
      · by_cases hsa : 0 < start
        · rw [if_neg hj0, dif_neg (by omega : ¬ (start ≤ 0 ∨ j = 0))]
          simp [hsa]
        · rw [if_neg hj0, dif_pos (Or.inl (by omega : start ≤ 0))]
          simp [hsa]
    have h5 : start ∈ jsAt a a start ∨
        runLen a a 0 0 a.length start start ≤ best.size := by
      by_cases hm : start ∈ jsAt a a start
      · exact Or.inl hm
      · refine Or.inr ?_
        rw [runLen, if_neg (fun hx => hm hx.1)]
        omega
    obtain ⟨c1, c2, c3⟩ := innerJ_noop a start j2old (jsAt a a start)
      (fun _ => 0) best (sorted_jsAt a a start) hwin hkv
      (fun j hj hji => le_trans (runLen_diag_right a start j (by omega))
        (hprev j j hji))
      (fun j hj hij => runLen_diag_left a start j (by omega))
      hdiag h5
    have hmap' : (innerJ start 0 a.length j2old (jsAt a a start)
        (fun _ => 0) best).1
        = fun j' => if 0 < start + 1
            then runLen a a 0 0 a.length (start + 1 - 1) j' else 0 := by
      rw [innerJ_fst _ _ _ _ _ _ _ (sorted_jsAt a a start)]
      funext j'
      rw [if_pos (by omega : 0 < start + 1)]
      have e : start + 1 - 1 = start := by omega
      rw [e]
      by_cases hm : j' ∈ jsAt a a start ∧ 0 ≤ j' ∧ j' < a.length
      · rw [if_pos hm, hkv j' hm.1]
      · rw [if_neg hm, runLen, if_neg hm]
    obtain ⟨d1, d2, d3⟩ := IH (start + 1) _ _ hmap' c1 (fun i' j' hi' => by
      rcases Nat.lt_or_ge i' start with hlt | hge
      · exact le_trans (hprev i' j' hlt) c2
      · have : i' = start := by omega
        subst this
        by_cases hm : j' ∈ jsAt a a i'
        · exact c3 j' hm
        · rw [runLen, if_neg (fun hx => hm hx.1)]
          omega)
    refine ⟨d1, le_trans c2 d2, ?_⟩
    intro i' j' hi'
    exact d3 i' j' (by omega)

theorem extBack_diag (a : List α) :
    ∀ d s, d + s ≤ a.length →
      extBack a a 0 0 ⟨d, d, s⟩ = ⟨0, 0, s + d⟩ := by
  intro d
  induction d with
  | zero =>
    intro s hs
    rw [extBack, dif_neg (by simp)]
    simp
  | succ n IH =>
    intro s hs
    rw [extBack]
    have hm : matchAt a a (n + 1 - 1) (n + 1 - 1) = true := by
      have e : n + 1 - 1 = n := by omega
      rw [e]
      exact matchAt_self (by omega)
    rw [dif_pos ⟨by omega, by omega, hm⟩]
    have e : n + 1 - 1 = n := by omega
    rw [show (⟨n + 1 - 1, n + 1 - 1, s + 1⟩ : Best) = ⟨n, n, s + 1⟩ by rw [e]]
    rw [IH (s + 1) (by omega)]
    have e2 : s + 1 + n = s + (n + 1) := by omega
    rw [e2]

theorem extFwd_full (a : List α) :
    ∀ fuel c, a.length - c = fuel → c ≤ a.length →
      extFwd a a a.length a.length ⟨0, 0, c⟩ = ⟨0, 0, a.length⟩ := by
  intro fuel
  induction fuel with
  | zero =>
    intro c hf hc
    have : c = a.length := by omega
    subst this
    rw [extFwd, dif_neg (by simp)]
  | succ n IH =>
    intro c hf hc
    rw [extFwd]
    have hm : matchAt a a (0 + c) (0 + c) = true := by
      have e : 0 + c = c := by omega
      rw [e]
      exact matchAt_self (by omega)
    rw [dif_pos ⟨by omega, by omega, hm⟩]
    exact IH (c + 1) (by omega) (by omega)

/-- On a self-comparison `find_longest_match` over the whole range returns
the full-sequence match. -/
theorem flm_noop (a : List α) :
    find_longest_match a a 0 a.length 0 a.length = ⟨0, 0, a.length⟩ := by
  unfold find_longest_match
  have hbounds : (outerI a a 0 a.length (List.range' 0 (a.length - 0))
      (fun _ => 0) ⟨0, 0, 0⟩).i
      + (outerI a a 0 a.length (List.range' 0 (a.length - 0))
      (fun _ => 0) ⟨0, 0, 0⟩).size ≤ a.length := by
    refine (outerI_sound a a 0 0 a.length a.length
      (fun m => m.i + m.size ≤ a.length) ?_ (a.length - 0) 0 _ _
      (le_refl 0) (by omega) ?_ (by simp)).trans (le_refl _)
    · intro i j hai hlt hpos hblo hbhi
      obtain ⟨hb1, hb2, hr1, hr2, hsl⟩ :=
        runLen_sound a a 0 0 a.length i j hai hpos
      show i + 1 - runLen a a 0 0 a.length i j
        + runLen a a 0 0 a.length i j ≤ a.length
      omega
    · funext j'
      rw [if_neg (by omega : ¬ (0:Nat) < 0)]
  obtain ⟨hdiag, -, -⟩ := outer_noop a (a.length - 0) 0 (fun _ => 0) ⟨0, 0, 0⟩
    (by funext j'; rw [if_neg (by omega : ¬ (0:Nat) < 0)]) rfl
    (by intro i' j' h; omega)
  set m0 := outerI a a 0 a.length (List.range' 0 (a.length - 0))
    (fun _ => 0) ⟨0, 0, 0⟩ with hm0
  clear_value m0
  obtain ⟨d, dj, s⟩ := m0
  simp only at hdiag hbounds
  subst hdiag
  show extFwd a a a.length a.length (extBack a a 0 0 ⟨d, d, s⟩)
    = ⟨0, 0, a.length⟩
  rw [extBack_diag a d s (by omega)]
  rw [extFwd_full a (a.length - (s + d)) (s + d) rfl (by omega)]

/-- On a self-comparison the matching blocks are the single full block
(plus the terminal sentinel). -/
theorem gmb_noop (a : List α) :
    get_matching_blocks a a
      = if 0 < a.length
        then [⟨0, 0, a.length⟩, ⟨a.length, a.length, 0⟩]
        else [⟨0, 0, 0⟩] := by
  unfold get_matching_blocks
  rw [blocksRec, flm_noop a]
  dsimp only
  by_cases hn : 0 < a.length
  · rw [dif_pos ⟨hn, by omega, by omega, by omega, by omega⟩,
      if_neg (by omega : ¬ ((0:Nat) < 0 ∧ (0:Nat) < 0)),
      if_neg (by omega : ¬ (0 + a.length < a.length ∧ 0 + a.length < a.length)),
      if_pos hn]
    simp [mergeAdj, hn.ne']
  · have h0 : a.length = 0 := by omega
    rw [dif_neg (by omega), if_neg hn]
    simp [mergeAdj, h0]

/-- On a self-comparison the opcode list is a single `equal` span (empty
for the empty sequence). -/
theorem get_opcodes_noop (a : List α) :
    get_opcodes a a
      = if 0 < a.length
        then [⟨Tag.equal, 0, a.length, 0, a.length⟩]
        else [] := by
  unfold get_opcodes
  rw [gmb_noop a]
  by_cases hn : 0 < a.length
  · rw [if_pos hn, if_pos hn]
    simp [opcodesAux, hn]
  · have h0 : a.length = 0 := by omega
    rw [if_neg hn, if_neg hn]
    simp [opcodesAux, h0]

end Difflib

theorem runsBy_flatten {α : Type} (R : α → α → Bool) :
    ∀ l : List α, (runsBy R l).flatten = l := by
  intro l
  induction l with
  | nil => rfl
  | cons a rest IH =>
    rw [runsBy]
    cases h : runsBy R rest with
    | nil =>
      rw [h] at IH
      simp at IH
      simp [← IH]
    | cons g gs =>
      rw [h] at IH
      cases g with
      | nil =>
        simp at IH ⊢
        exact IH
      | cons b t =>
        dsimp only
        by_cases hr : R a b
        · rw [if_pos hr]
          simp at IH ⊢
          exact IH
        · rw [if_neg hr]
          simp at IH ⊢
          exact IH

/-- Joining all tokens of `_tokenize_keep_spaces` reconstructs the input,
whitespace included. -/
theorem tokenize_flatten (s : Str) : (tokenize_keep_spaces s).flatten = s :=
  runsBy_flatten _ s

theorem pyEq_refl (v : PyVal) : pyEq v v = true := by
  cases v <;> simp [pyEq, PyVal.numVal]

theorem zip_self_eq {α : Type} :
    ∀ (l : List α) (p : α × α), p ∈ l.zip l → p.1 = p.2 := by
  intro l
  induction l with
  | nil =>
    intro p h
    simp at h
  | cons a rest IH =>
    intro p h
    rw [List.zip_cons_cons] at h
    rcases List.mem_cons.mp h with rfl | h
    · rfl
    · exact IH p h

theorem mem_dedupKeepFirst :
    ∀ {l : List Str} {x : Str}, x ∈ dedupKeepFirst l → x ∈ l := by
  intro l
  induction l with
  | nil => intro x h; simp [dedupKeepFirst] at h
  | cons a rest IH =>
    intro x h
    rw [dedupKeepFirst] at h
    rcases List.mem_cons.mp h with rfl | h
    · exact List.mem_cons_self _ _
    · exact List.mem_cons_of_mem _ (IH (List.mem_of_mem_filter h))

theorem dictGet_cons {β : Type} (q : Str × β) (rest : List (Str × β)) (k : Str) :
    dictGet (q :: rest) k = if q.1 = k then some q.2 else dictGet rest k := by
  unfold dictGet
  by_cases h : q.1 = k
  · rw [if_pos h, List.find?_cons_of_pos _ (by simp [h])]
    simp
  · rw [if_neg h, List.find?_cons_of_neg _ (by simp [h])]

theorem mem_dict_lookup {β : Type} :
    ∀ (d : List (Str × β)) (p : Str × β), (d.map Prod.fst).Nodup → p ∈ d →
      dictGet d p.1 = some p.2 := by
  intro d
  induction d with
  | nil =>
    intro p _ h
    simp at h
  | cons q rest IH =>
    intro p hnd hp
    rw [List.map_cons] at hnd
    have hnd' := List.nodup_cons.mp hnd
    rw [dictGet_cons]
    rcases List.mem_cons.mp hp with rfl | hp
    · rw [if_pos rfl]
    · have hp1 : p.1 ∈ rest.map Prod.fst := List.mem_map_of_mem _ hp
      have hne : ¬ (q.1 = p.1) := fun h => hnd'.1 (h ▸ hp1)
      rw [if_neg hne]
      exact IH p hnd'.2 hp

theorem dict_lookup_mem {β : Type} :
    ∀ (d : List (Str × β)) (k : Str) (v : β), dictGet d k = some v →
      (k, v) ∈ d := by
  intro d
  induction d with
  | nil =>
    intro k v h
    simp [dictGet] at h
  | cons q rest IH =>
    intro k v h
    rw [dictGet_cons] at h
    by_cases hq : q.1 = k
    · rw [if_pos hq] at h
      cases h
      rw [List.mem_cons]
      left
      rw [← hq]
    · rw [if_neg hq] at h
      exact List.mem_cons_of_mem _ (IH k v h)

theorem dict_lookup_none {β : Type} :
    ∀ (d : List (Str × β)) (k : Str), dictGet d k = Option.none →
      ∀ p ∈ d, p.1 ≠ k := by
  intro d
  induction d with
  | nil =>
    intro k _ p hp
    simp at hp
  | cons q rest IH =>
    intro k h p hp
    rw [dictGet_cons] at h
    by_cases hq : q.1 = k
    · rw [if_pos hq] at h
      simp at h
    · rw [if_neg hq] at h
      rcases List.mem_cons.mp hp with rfl | hp
      · exact hq
      · exact IH k h p hp

theorem dictInsert_keys_nodup {β : Type} (d : List (Str × β)) (k : Str) (v : β)
    (h : (d.map Prod.fst).Nodup) :
    ((dictInsert d k v).map Prod.fst).Nodup := by
  unfold dictInsert
  by_cases hc : d.any (fun p => decide (p.1 = k)) = true
  · rw [if_pos hc]
    have : (d.map (fun p => if p.1 = k then (k, v) else p)).map Prod.fst
        = d.map Prod.fst := by
      rw [List.map_map]
      apply List.map_congr_left
      intro p hp
      by_cases hpk : p.1 = k
      · simp [hpk]
      · simp [hpk]
    rw [this]
    exact h
  · rw [if_neg hc]
    rw [List.map_append]
    simp only [List.map_cons, List.map_nil]
    rw [List.nodup_append]
    refine ⟨h, List.nodup_singleton _, ?_⟩
    intro x hx
    simp only [List.mem_singleton]
    intro hxk
    subst hxk
    obtain ⟨p, hp, hpx⟩ := List.mem_map.mp hx
    rw [List.any_eq_true] at hc
    exact hc ⟨p, hp, by simp [hpx]⟩

theorem buildDict_keys_nodup {β : Type} (l : List (Str × β)) :
    ((buildDict l).map Prod.fst).Nodup := by
  have key : ∀ (l d : List (Str × β)), (d.map Prod.fst).Nodup →
      ((l.foldl (fun d p => dictInsert d p.1 p.2) d).map Prod.fst).Nodup := by
    intro l
    induction l with
    | nil => intro d h; exact h
    | cons p rest IH =>
      intro d h
      exact IH _ (dictInsert_keys_nodup d p.1 p.2 h)
  exact key l [] (by simp)

theorem mem_buildDict_lookup {β : Type} {l : List (Str × β)} {p : Str × β}
    (hp : p ∈ buildDict l) : dictGet (buildDict l) p.1 = some p.2 :=
  mem_dict_lookup _ p (buildDict_keys_nodup l) hp

namespace ChangeDetector

theorem flatMap_nil_of {α β : Type} {l : List α} {f : α → List β}
    (h : ∀ x ∈ l, f x = []) : l.flatMap f = [] := by
  induction l with
  | nil => rfl
  | cons a rest IH =>
    rw [List.flatMap_cons, h a (List.mem_cons_self _ _),
      IH (fun x hx => h x (List.mem_cons_of_mem _ hx))]
    rfl

theorem snd_mem_of_mem_enum {α : Type} {l : List α} {p : Nat × α}
    (h : p ∈ l.enum) : p.2 ∈ l := by
  obtain ⟨i, x⟩ := p
  obtain ⟨h1, h2⟩ := List.mem_enum h
  show x ∈ l
  rw [h2]
  exact List.getElem_mem h1

theorem docx_text_noop (d : Doc) : detect_docx_text_changes d d = [] := by
  unfold detect_docx_text_changes
  rw [List.filterMap_eq_nil]
  intro i hi
  unfold docxTextStep
  simp

theorem pdf_text_noop (d : Doc) : detect_pdf_text_changes d d = [] := by
  unfold detect_pdf_text_changes
  apply flatMap_nil_of
  intro i hi
  apply flatMap_nil_of
  intro o ho
  rw [Difflib.get_opcodes_noop] at ho
  by_cases h : 0 < (split_sentences (pageTextAt d.pages i)).length
  · rw [if_pos h] at ho
    simp at ho
    subst ho
    rfl
  · rw [if_neg h] at ho
    simp at ho

theorem xlsx_text_noop (d : Doc) : detect_xlsx_text_changes d d = [] := by
  unfold detect_xlsx_text_changes
  apply flatMap_nil_of
  intro name hname
  have hname' : name ∈ d.sheets.map Sheet.name := by
    have := mem_dedupKeepFirst hname
    rcases List.mem_append.mp this with h | h
    · exact h
    · exact h
  have hfind : (d.sheets.find? (fun s => decide (s.name = name))).isSome := by
    rw [List.find?_isSome]
    obtain ⟨s, hs, hsn⟩ := List.mem_map.mp hname'
    exact ⟨s, hs, by simp [hsn]⟩
  obtain ⟨s, hs⟩ := Option.isSome_iff_exists.mp hfind
  unfold xlsxTextForName
  rw [hs]
  apply flatMap_nil_of
  intro coord hcoord
  cases hc : dictGet (sheetCellsDict s) coord with
  | none => simp
  | some c => simp

theorem annotDiffs_self (a : Annot) : annotDiffs a a = [] := by
  unfold annotDiffs
  simp

theorem annot_noop (d : Doc) (ot rt : Str) :
    detect_annotation_changes d d ot rt = [] := by
  unfold detect_annotation_changes
  by_cases h : ot = str "pdf" ∧ rt = str "pdf"
  · rw [if_pos h]
    dsimp only
    have h1 : (buildDict (d.annotations.map (fun a => (annot_key a, a)))).filter
        (fun p => decide (dictGet
          (buildDict (d.annotations.map (fun a => (annot_key a, a)))) p.1
            = Option.none)) = [] := by
      rw [List.filter_eq_nil]
      intro p hp
      rw [mem_buildDict_lookup hp]
      simp
    rw [h1]
    have h2 : (buildDict (d.annotations.map (fun a => (annot_key a, a)))).filterMap
        (fun p => match dictGet
            (buildDict (d.annotations.map (fun a => (annot_key a, a)))) p.1 with
          | some rAnn => annotModifiedRecord p.1 p.2 rAnn
          | Option.none => Option.none) = [] := by
      rw [List.filterMap_eq_nil]
      intro p hp
      rw [mem_buildDict_lookup hp]
      unfold annotModifiedRecord
      dsimp only
      rw [annotDiffs_self]
      simp
    rw [h2]
    rfl
  · rw [if_neg h]

theorem run_fmt_self (r : Run) : compare_run_formatting r r = [] := by
  unfold compare_run_formatting
  simp [pyEq_refl]

theorem cell_fmt_self (c : Cell) : compare_cell_formatting c c = [] := by
  unfold compare_cell_formatting
  simp [pyEq_refl]

theorem docx_fmt_noop (d : Doc) : detect_docx_formatting_changes d d = [] := by
  unfold detect_docx_formatting_changes
  apply flatMap_nil_of
  intro pi hpi
  have hpeq : pi.2.1 = pi.2.2 :=
    zip_self_eq _ pi.2 (snd_mem_of_mem_enum hpi)
  rw [hpeq, if_neg (by simp [pyEq_refl])]
  rw [List.nil_append]
  apply flatMap_nil_of
  intro rj hrj
  have hreq : rj.2.1 = rj.2.2 :=
    zip_self_eq _ rj.2 (snd_mem_of_mem_enum hrj)
  rw [hreq, if_pos rfl, run_fmt_self, if_neg (by simp)]

theorem xlsx_fmt_pair_self (s : Sheet) : xlsxFmtPair s s = [] := by
  unfold xlsxFmtPair
  rw [if_neg (by simp)]
  apply flatMap_nil_of
  intro p hp
  unfold sheetCellsDict at hp ⊢
  rw [mem_buildDict_lookup hp]
  simp only
  rw [if_pos (pyEq_refl _), cell_fmt_self, if_neg (by simp)]

theorem xlsx_fmt_noop (d : Doc) : detect_xlsx_formatting_changes d d = [] := by
  unfold detect_xlsx_formatting_changes
  apply flatMap_nil_of
  intro p hp
  have hpeq : p.1 = p.2 := zip_self_eq _ p hp
  rw [hpeq]
  exact xlsx_fmt_pair_self p.2

theorem tables_noop (d : Doc) : detect_docx_table_changes d d = [] := by
  unfold detect_docx_table_changes
  rw [if_neg (by simp)]
  rw [List.nil_append]
  apply flatMap_nil_of
  intro ti hti
  have hteq : ti.2.1 = ti.2.2 := zip_self_eq _ ti.2 (snd_mem_of_mem_enum hti)
  rw [hteq, if_neg (by simp)]
  rw [List.nil_append]
  apply flatMap_nil_of
  intro rj hrj
  have hreq : rj.2.1 = rj.2.2 := zip_self_eq _ rj.2 (snd_mem_of_mem_enum hrj)
  rw [hreq]
  apply flatMap_nil_of
  intro ck hck
  have hceq : ck.2.1 = ck.2.2 := zip_self_eq _ ck.2 (snd_mem_of_mem_enum hck)
  rw [hceq, if_neg (by simp)]

theorem images_noop (sim : Str → Str → ℚ) (d : Doc)
    (himg : ∀ img ∈ d.images, ¬ sim img.data img.data < image_similarity_threshold) :
    detect_docx_image_changes sim d d = [] := by
  unfold detect_docx_image_changes
  rw [if_neg (by simp)]
  rw [List.nil_append]
  apply flatMap_nil_of
  intro pi hpi
  have hpeq : pi.2.1 = pi.2.2 := zip_self_eq _ pi.2 (snd_mem_of_mem_enum hpi)
  have hmem : pi.2.2 ∈ d.images := by
    have h2 : pi.2 ∈ d.images.zip d.images := snd_mem_of_mem_enum hpi
    have := List.of_mem_zip h2
    exact this.2
  rw [hpeq, if_neg (by simp), if_neg (himg _ hmem)]
  rfl

theorem structural_noop (d : Doc) (t : Str) :
    detect_structural_changes d d t t = [] := by
  unfold detect_structural_changes
  rw [if_neg (by simp)]
  split_ifs <;> first | rfl | omega

/-- The no-op invariant of `detect_changes`, conditional on every image
payload self-comparing at or above the similarity threshold (true for every
decodable payload, where SSIM of identical pixel arrays is 1; decode
failures yield 0.0 and break the invariant — see the counterexample). -/
theorem detect_changes_noop (sim : Str → Str → ℚ) (d : Doc) (t : Str)
    (ht : d.dtype = some t)
    (himg : ∀ img ∈ d.images,
      ¬ sim img.data img.data < image_similarity_threshold) :
    detect_changes sim d d = .ok emptyReport := by
  unfold detect_changes
  rw [ht]
  dsimp only
  have h1 : detect_text_changes d d t t = [] := by
    unfold detect_text_changes
    split_ifs
    · exact docx_text_noop d
    · exact pdf_text_noop d
    · exact xlsx_text_noop d
    · rfl
  have h2 : detect_formatting_changes d d t t = [] := by
    unfold detect_formatting_changes
    split_ifs
    · exact docx_fmt_noop d
    · exact xlsx_fmt_noop d
    · rfl
  have h3 : detect_table_changes d d t t = [] := by
    unfold detect_table_changes
    split_ifs
    · exact tables_noop d
    · rfl
  have h4 : detect_image_changes sim d d t t = [] := by
    unfold detect_image_changes
    split_ifs
    · exact images_noop sim d himg
    · rfl
  have h5 : detect_annotation_changes d d t t = [] := annot_noop d t t
  have h6 : detect_structural_changes d d t t = [] := structural_noop d t
  rw [h1, h2, h3, h4, h5, h6]
  rfl

end ChangeDetector

/-!
## Docx text characterization (claims C5 and C9)
-/

namespace ChangeDetector

theorem textAt_lt {ps : List Paragraph} {i : Nat} (h : textAt ps i ≠ []) :
    i < ps.length := by
  by_contra hge
  apply h
  unfold textAt
  rw [List.get?_eq_none.mpr (by omega)]

theorem docxTextStep_index {op rp : List Paragraph} {i : Nat} {c : Change}
    (h : docxTextStep op rp i = some c) : docxTextIndex c = some i := by
  unfold docxTextStep at h
  dsimp only at h
  split_ifs at h
  · injection h with h
    subst h
    rfl
  · injection h with h
    subst h
    rfl
  · injection h with h
    subst h
    rfl

theorem mem_docx_text (o r : Doc) (c : Change) :
    c ∈ detect_docx_text_changes o r ↔
      ∃ i, i < max o.paragraphs.length r.paragraphs.length ∧
        docxTextStep o.paragraphs r.paragraphs i = some c := by
  unfold detect_docx_text_changes
  rw [List.mem_filterMap]
  constructor
  · rintro ⟨i, hi, hs⟩
    exact ⟨i, List.mem_range.mp hi, hs⟩
  · rintro ⟨i, hi, hs⟩
    exact ⟨i, List.mem_range.mpr hi, hs⟩

/-- A record of the docx text detector bearing index `i` is the one step `i`
produced (indices are embedded in the records, so distinct loop iterations
cannot collide). -/
theorem docx_text_at_index {o r : Doc} {c : Change} {i : Nat}
    (hc : c ∈ detect_docx_text_changes o r) (hi : docxTextIndex c = some i) :
    docxTextStep o.paragraphs r.paragraphs i = some c := by
  obtain ⟨j, hj, hs⟩ := (mem_docx_text o r c).mp hc
  have hji := docxTextStep_index hs
  rw [hi] at hji
  injection hji with hji
  rw [← hji] at hs
  exact hs

theorem docxTextStep_del {op rp : List Paragraph} {i : Nat}
    (h1 : textAt op i ≠ []) (h2 : textAt rp i = []) :
    docxTextStep op rp i = some (.textDeleted (textAt op i) i) := by
  unfold docxTextStep
  dsimp only
  have hc : textAt op i ≠ [] ∧ textAt rp i = [] := ⟨h1, h2⟩
  rw [if_pos hc]

theorem docxTextStep_add {op rp : List Paragraph} {i : Nat}
    (h1 : textAt op i = []) (h2 : textAt rp i ≠ []) :
    docxTextStep op rp i = some (.textAdded (textAt rp i) i) := by
  unfold docxTextStep
  dsimp only
  have hc1 : ¬ (textAt op i ≠ [] ∧ textAt rp i = []) := by
    rintro ⟨a, -⟩
    exact a h1
  have hc2 : textAt rp i ≠ [] ∧ textAt op i = [] := ⟨h2, h1⟩
  rw [if_neg hc1, if_pos hc2]

theorem docxTextStep_mod {op rp : List Paragraph} {i : Nat}
    (h1 : textAt op i ≠ []) (h2 : textAt rp i ≠ [])
    (h3 : textAt op i ≠ textAt rp i) :
    docxTextStep op rp i =
      some (.textModified (word_diff_html (textAt op i) (textAt rp i)).1
        (textAt op i) (textAt rp i)
        (word_diff_html (textAt op i) (textAt rp i)).2.1
        (word_diff_html (textAt op i) (textAt rp i)).2.2 i) := by
  unfold docxTextStep
  dsimp only
  have hc1 : ¬ (textAt op i ≠ [] ∧ textAt rp i = []) := by
    rintro ⟨-, b⟩
    exact h2 b
  have hc2 : ¬ (textAt rp i ≠ [] ∧ textAt op i = []) := by
    rintro ⟨-, b⟩
    exact h1 b
  rw [if_neg hc1, if_neg hc2, if_pos h3]

theorem docxTextStep_none {op rp : List Paragraph} {i : Nat}
    (h : textAt op i = textAt rp i) :
    docxTextStep op rp i = Option.none := by
  unfold docxTextStep
  dsimp only
  have hc1 : ¬ (textAt op i ≠ [] ∧ textAt rp i = []) := by
    rintro ⟨a, b⟩
    exact a (h.trans b)
  have hc2 : ¬ (textAt rp i ≠ [] ∧ textAt op i = []) := by
    rintro ⟨a, b⟩
    exact a (h.symm.trans b)
  rw [if_neg hc1, if_neg hc2, if_neg (by simp [h])]

theorem docxTextStep_del_inv {op rp : List Paragraph} {i : Nat} {t : Str} {j : Nat}
    (h : docxTextStep op rp i = some (.textDeleted t j)) :
    t = textAt op i ∧ j = i ∧ textAt op i ≠ [] ∧ textAt rp i = [] := by
  unfold docxTextStep at h
  dsimp only at h
  split_ifs at h with a b c
  · injection h with h
    injection h with e1 e2
    exact ⟨e1.symm, e2.symm, a.1, a.2⟩
  · injection h with h
    exact Change.noConfusion h
  · injection h with h
    exact Change.noConfusion h

theorem docxTextStep_add_inv {op rp : List Paragraph} {i : Nat} {t : Str} {j : Nat}
    (h : docxTextStep op rp i = some (.textAdded t j)) :
    t = textAt rp i ∧ j = i ∧ textAt rp i ≠ [] ∧ textAt op i = [] := by
  unfold docxTextStep at h
  dsimp only at h
  split_ifs at h with a b c
  · injection h with h
    exact Change.noConfusion h
  · injection h with h
    injection h with e1 e2
    exact ⟨e1.symm, e2.symm, b.1, b.2⟩
  · injection h with h
    exact Change.noConfusion h

theorem docxTextStep_mod_inv {op rp : List Paragraph} {i : Nat}
    {hm om nm : Str} {am dm : List Str} {j : Nat}
    (h : docxTextStep op rp i = some (.textModified hm om nm am dm j)) :
    om = textAt op i ∧ nm = textAt rp i ∧ j = i ∧
      textAt op i ≠ [] ∧ textAt rp i ≠ [] ∧ textAt op i ≠ textAt rp i := by
  unfold docxTextStep at h
  dsimp only at h
  split_ifs at h with a b c
  · injection h with h
    exact Change.noConfusion h
  · injection h with h
    exact Change.noConfusion h
  · have ho : textAt op i ≠ [] := by
      intro h0
      by_cases hn : textAt rp i = []
      · exact c (h0.trans hn.symm)
      · exact b ⟨hn, h0⟩
    have hn : textAt rp i ≠ [] := by
      intro h0
      by_cases ho2 : textAt op i = []
      · exact c (ho2.trans h0.symm)
      · exact a ⟨ho2, h0⟩
    injection h with h
    injection h with e1 e2 e3 e4 e5 e6
    exact ⟨e2.symm, e3.symm, e6.symm, ho, hn, c⟩

end ChangeDetector

/-!
## Classification of `change_type` across the six categories (claim C3)
-/

namespace ChangeDetector

theorem docx_text_classify (o r : Doc) :
    ∀ c ∈ detect_docx_text_changes o r,
      changeTypeField c = some (str "added") ∨
      changeTypeField c = some (str "deleted") ∨
      changeTypeField c = some (str "modified") := by
  intro c hc
  obtain ⟨i, -, hs⟩ := (mem_docx_text o r c).mp hc
  unfold docxTextStep at hs
  dsimp only at hs
  split_ifs at hs <;> injection hs with hs <;> subst hs <;> simp [changeTypeField]

theorem pdf_text_classify (o r : Doc) :
    ∀ c ∈ detect_pdf_text_changes o r,
      changeTypeField c = some (str "added") ∨
      changeTypeField c = some (str "deleted") ∨
      changeTypeField c = some (str "modified") := by
  intro c hc
  unfold detect_pdf_text_changes at hc
  obtain ⟨i, -, hc⟩ := List.mem_flatMap.mp hc
  dsimp only at hc
  obtain ⟨op, -, hc⟩ := List.mem_flatMap.mp hc
  unfold pdfOpRecords at hc
  split at hc
  · simp at hc
  · obtain ⟨s, -, rfl⟩ := List.mem_map.mp hc
    simp [changeTypeField]
  · obtain ⟨s, -, rfl⟩ := List.mem_map.mp hc
    simp [changeTypeField]
  · dsimp only at hc
    rcases List.mem_append.mp hc with hc | hc
    · rcases List.mem_append.mp hc with hc | hc
      · obtain ⟨p, -, rfl⟩ := List.mem_map.mp hc
        simp [changeTypeField]
      · obtain ⟨s, -, rfl⟩ := List.mem_map.mp hc
        simp [changeTypeField]
    · obtain ⟨s, -, rfl⟩ := List.mem_map.mp hc
      simp [changeTypeField]

theorem xlsx_text_classify (o r : Doc) :
    ∀ c ∈ detect_xlsx_text_changes o r,
      changeTypeField c = some (str "added") ∨
      changeTypeField c = some (str "deleted") ∨
      changeTypeField c = some (str "modified") := by
  intro c hc
  unfold detect_xlsx_text_changes at hc
  obtain ⟨name, -, hc⟩ := List.mem_flatMap.mp hc
  unfold xlsxTextForName at hc
  split at hc
  · rcases List.mem_singleton.mp hc with rfl
    simp [changeTypeField]
  · rcases List.mem_singleton.mp hc with rfl
    simp [changeTypeField]
  · dsimp only at hc
    obtain ⟨coord, -, hc⟩ := List.mem_flatMap.mp hc
    split at hc
    · rcases List.mem_singleton.mp hc with rfl
      simp [changeTypeField]
    · rcases List.mem_singleton.mp hc with rfl
      simp [changeTypeField]
    · split_ifs at hc
      · rcases List.mem_singleton.mp hc with rfl
        simp [changeTypeField]
      · simp at hc
    · simp at hc

theorem annot_classify (o r : Doc) (ot rt : Str) :
    ∀ c ∈ detect_annotation_changes o r ot rt,
      changeTypeField c = some (str "added") ∨
      changeTypeField c = some (str "deleted") ∨
      changeTypeField c = some (str "modified") := by
  intro c hc
  unfold detect_annotation_changes at hc
  split_ifs at hc
  · dsimp only at hc
    rcases List.mem_append.mp hc with hc | hc
    · rcases List.mem_append.mp hc with hc | hc
      · obtain ⟨p, -, rfl⟩ := List.mem_map.mp hc
        simp [changeTypeField]
      · obtain ⟨p, -, rfl⟩ := List.mem_map.mp hc
        simp [changeTypeField]
    · obtain ⟨p, -, hp⟩ := List.mem_filterMap.mp hc
      split at hp
      · unfold annotModifiedRecord at hp
        dsimp only at hp
        split_ifs at hp <;> (injection hp with hp; subst hp; simp [changeTypeField])
      · exact Option.noConfusion hp
  · simp at hc

theorem fmt_classify (o r : Doc) (ot rt : Str) :
    ∀ c ∈ detect_formatting_changes o r ot rt, changeTypeField c = Option.none := by
  intro c hc
  unfold detect_formatting_changes at hc
  split_ifs at hc
  · unfold detect_docx_formatting_changes at hc
    obtain ⟨pi, -, hc⟩ := List.mem_flatMap.mp hc
    rcases List.mem_append.mp hc with hc | hc
    · split_ifs at hc <;>
        first | (rcases List.mem_singleton.mp hc with rfl; rfl) | simp at hc
    · obtain ⟨rj, -, hc⟩ := List.mem_flatMap.mp hc
      dsimp only at hc
      split_ifs at hc <;>
        first | (rcases List.mem_singleton.mp hc with rfl; rfl) | simp at hc
  · unfold detect_xlsx_formatting_changes at hc
    obtain ⟨p, -, hc⟩ := List.mem_flatMap.mp hc
    unfold xlsxFmtPair at hc
    split_ifs at hc
    · simp at hc
    · dsimp only at hc
      obtain ⟨q, -, hc⟩ := List.mem_flatMap.mp hc
      split at hc
      · simp at hc
      · split_ifs at hc <;>
          first | (rcases List.mem_singleton.mp hc with rfl; rfl) | simp at hc
  · simp at hc

theorem table_classify (o r : Doc) (ot rt : Str) :
    ∀ c ∈ detect_table_changes o r ot rt, changeTypeField c = Option.none := by
  intro c hc
  unfold detect_table_changes at hc
  split_ifs at hc
  · unfold detect_docx_table_changes at hc
    rcases List.mem_append.mp hc with hc | hc
    · split_ifs at hc <;>
        first | (rcases List.mem_singleton.mp hc with rfl; rfl) | simp at hc
    · obtain ⟨ti, -, hc⟩ := List.mem_flatMap.mp hc
      rcases List.mem_append.mp hc with hc | hc
      · split_ifs at hc <;>
          first | (rcases List.mem_singleton.mp hc with rfl; rfl) | simp at hc
      · obtain ⟨rj, -, hc⟩ := List.mem_flatMap.mp hc
        obtain ⟨ck, -, hc⟩ := List.mem_flatMap.mp hc
        split_ifs at hc <;>
          first | (rcases List.mem_singleton.mp hc with rfl; rfl) | simp at hc
  · simp at hc

theorem image_classify (sim : Str → Str → ℚ) (o r : Doc) (ot rt : Str) :
    ∀ c ∈ detect_image_changes sim o r ot rt, changeTypeField c = Option.none := by
  intro c hc
  unfold detect_image_changes at hc
  split_ifs at hc
  · unfold detect_docx_image_changes at hc
    rcases List.mem_append.mp hc with hc | hc
    · split_ifs at hc <;>
        first | (rcases List.mem_singleton.mp hc with rfl; rfl) | simp at hc
    · obtain ⟨pi, -, hc⟩ := List.mem_flatMap.mp hc
      rcases List.mem_append.mp hc with hc | hc <;>
        split_ifs at hc <;>
          first | (rcases List.mem_singleton.mp hc with rfl; rfl) | simp at hc
  · simp at hc

theorem structural_classify (o r : Doc) (ot rt : Str) :
    ∀ c ∈ detect_structural_changes o r ot rt, changeTypeField c = Option.none := by
  intro c hc
  unfold detect_structural_changes at hc
  split_ifs at hc <;>
    first | (rcases List.mem_singleton.mp hc with rfl; rfl) | simp at hc

end ChangeDetector

/-!
## Uniqueness of the per-cell formatting record (claim C8)
-/

namespace ChangeDetector

/-- A flatMap over an association list with distinct keys contributes, after
filtering for the key `coord`, exactly the one record of the entry carrying
that key. -/
theorem flatMap_filter_single {β : Type} (g : Str × β → List Change)
    (q : Change → Bool) (rec : Change) (coord : Str) :
    ∀ {l : List (Str × β)},
      (l.map Prod.fst).Nodup →
      (∀ p ∈ l, p.1 ≠ coord → (g p).filter q = []) →
      (∀ p ∈ l, p.1 = coord → (g p).filter q = [rec]) →
      coord ∈ l.map Prod.fst →
      (l.flatMap g).filter q = [rec] := by
  intro l
  induction l with
  | nil =>
    intro _ _ _ hmem
    simp at hmem
  | cons p rest IH =>
    intro hnd hother hsome hmem
    rw [List.map_cons, List.nodup_cons] at hnd
    rw [List.flatMap_cons, List.filter_append]
    by_cases hp : p.1 = coord
    · rw [hsome p (List.mem_cons_self _ _) hp]
      have hrest : (rest.flatMap g).filter q = [] := by
        have key : ∀ {l' : List (Str × β)}, (∀ p' ∈ l', (g p').filter q = []) →
            (l'.flatMap g).filter q = [] := by
          intro l'
          induction l' with
          | nil => intro _; rfl
          | cons p' rest' IH' =>
            intro h
            rw [List.flatMap_cons, List.filter_append,
              h p' (List.mem_cons_self _ _),
              IH' (fun x hx => h x (List.mem_cons_of_mem _ hx))]
            rfl
        apply key
        intro p' hp'
        apply hother p' (List.mem_cons_of_mem _ hp')
        intro hc
        exact hnd.1 (by rw [hp, ← hc]; exact List.mem_map_of_mem _ hp')
      rw [hrest]
      rfl
    · rw [hother p (List.mem_cons_self _ _) hp, List.nil_append]
      apply IH hnd.2 (fun p' h' => hother p' (List.mem_cons_of_mem _ h'))
        (fun p' h' => hsome p' (List.mem_cons_of_mem _ h'))
      rw [List.map_cons, List.mem_cons] at hmem
      rcases hmem with h | h
      · exact absurd h.symm hp
      · exact h

end ChangeDetector

/-!
## Claim theorems
-/

namespace ChangeDetector

/-- Claim C1, amended core: comparing a Normalized Document against a deep
copy of itself yields the report with every category list empty and
`total_changes = 0`, provided every image payload self-compares at or above
the similarity threshold (true of every payload the image decoder accepts,
where the similarity of a byte string with itself is 1).  The unconditional
claim is refuted by `spec_C1_counterexample`: an undecodable payload
self-compares at the decode-failure score 0.0. -/
theorem spec_C1_noop (sim : Str → Str → ℚ) (d : Doc) (t : Str)
    (ht : d.dtype = some t)
    (himg : ∀ img ∈ d.images,
      ¬ sim img.data img.data < image_similarity_threshold) :
    detect_changes sim d d = Except.ok emptyReport :=
  detect_changes_noop sim d t ht himg

/-- Witness for C1: the amended no-op theorem at a concrete word document
with a paragraph, a run, a table and an image, under the constant
similarity 1. -/
theorem spec_C1_noop_witness :
    detect_changes (fun _ _ => (1 : ℚ)) wordNoopDoc wordNoopDoc
      = Except.ok emptyReport :=
  spec_C1_noop (fun _ _ => 1) wordNoopDoc (str "docx") rfl
    (by intro img h
        show ¬ (1 : ℚ) < image_similarity_threshold
        decide)

/-- Counterexample to C1 as frozen: a word document whose single image
payload `"x"` is rejected by the base64 decoder, so `_compare_images`
returns its decode-failure score 0.0 even against a deep copy; the report
carries an `image_content_change` record and `total_changes = 1`. -/
theorem spec_C1_counterexample :
    detect_changes (fun _ _ => (0 : ℚ)) docImgBad docImgBad =
      Except.ok
        { text_changes := []
          formatting_changes := []
          table_changes := []
          image_changes := [Change.imageContentChange 0 0]
          annotation_changes := []
          structural_changes := []
          summary := ⟨1, 0, 0, 0, 1, 0, 0⟩ } := by
  rfl

end ChangeDetector

namespace ChangeDetector

set_option maxRecDepth 8000 in
/-- Claim C2 (refuted: the two components disagree): for the annotation
`c2annot`, which lacks an explicit identity name (page 1, subtype `Text`,
no rect, contents `"x"`), the comparator key follows the spec's scheme
`"AUTO-" ++ md5("1:Text::x")[:10]`, but the extraction-time fallback ID
prefixes the page and subtype as well (`"AUTO-1-Text-" ++ digest`), so the
two resolvers produce different keys from identical inputs (they also
disagree on rect rounding, 3 versus 2 decimals, and on contents
truncation, `[:64]` versus none, not exercised by this input). -/
theorem spec_C2_fallback_mismatch :
    c2annot.id = [] ∧
    annot_key c2annot
      = str "AUTO-" ++ (MD5.md5Hex (utf8 (str "1:Text::x"))).take 10 ∧
    compute_annot_fallback_id 1 c2annot.subtype [] c2annot.contents
      = str "AUTO-1-Text-" ++ (MD5.md5Hex (utf8 (str "1:Text::x"))).take 10 ∧
    annot_key c2annot
      ≠ compute_annot_fallback_id 1 c2annot.subtype [] c2annot.contents := by
  refine ⟨rfl, rfl, rfl, by decide⟩

end ChangeDetector

namespace ChangeDetector

/-- Claim C3, amended: in every report `detect_changes` returns, text and
annotation records carry `change_type ∈ {added, deleted, modified}`, while
formatting, table, image and structural records carry no `change_type` key
at all (refuting the frozen claim, which asserts the field for all six
category lists — see `spec_C3_counterexample`). -/
theorem spec_C3_change_type (sim : Str → Str → ℚ) (o r : Doc) (rep : Report)
    (h : detect_changes sim o r = Except.ok rep) :
    (∀ c ∈ rep.text_changes,
      changeTypeField c = some (str "added") ∨
      changeTypeField c = some (str "deleted") ∨
      changeTypeField c = some (str "modified")) ∧
    (∀ c ∈ rep.annotation_changes,
      changeTypeField c = some (str "added") ∨
      changeTypeField c = some (str "deleted") ∨
      changeTypeField c = some (str "modified")) ∧
    (∀ c ∈ rep.formatting_changes, changeTypeField c = Option.none) ∧
    (∀ c ∈ rep.table_changes, changeTypeField c = Option.none) ∧
    (∀ c ∈ rep.image_changes, changeTypeField c = Option.none) ∧
    (∀ c ∈ rep.structural_changes, changeTypeField c = Option.none) := by
  unfold detect_changes at h
  cases ho : o.dtype with
  | none =>
    rw [ho] at h
    cases hr : r.dtype <;> rw [hr] at h <;> exact Except.noConfusion h
  | some ot =>
    rw [ho] at h
    cases hr : r.dtype with
    | none =>
      rw [hr] at h
      exact Except.noConfusion h
    | some rt =>
      rw [hr] at h
      dsimp only at h
      injection h with h
      subst h
      dsimp only
      refine ⟨?_, annot_classify o r ot rt, fmt_classify o r ot rt,
        table_classify o r ot rt, image_classify sim o r ot rt,
        structural_classify o r ot rt⟩
      intro c hc
      unfold detect_text_changes at hc
      split_ifs at hc
      · exact docx_text_classify o r c hc
      · exact pdf_text_classify o r c hc
      · exact xlsx_text_classify o r c hc
      · simp at hc

/-- Witness for C3: the paragraph-style record of the `styleDocA`/`styleDocB`
comparison is classified as carrying no `change_type` key. -/
theorem spec_C3_witness :
    changeTypeField (Change.paraStyleChange 0 (PyVal.str (str "Normal"))
      (PyVal.str (str "Heading 1"))) = Option.none :=
  (spec_C3_change_type (fun _ _ => (1 : ℚ)) styleDocA styleDocB
      ⟨[], [Change.paraStyleChange 0 (PyVal.str (str "Normal"))
          (PyVal.str (str "Heading 1"))], [], [], [], [],
        ⟨1, 0, 1, 0, 0, 0, 0⟩⟩ rfl).2.2.1
    (Change.paraStyleChange 0 (PyVal.str (str "Normal"))
      (PyVal.str (str "Heading 1")))
    (List.mem_singleton.mpr rfl)

/-- Counterexample to C3 as frozen: two word documents differing only in one
paragraph style produce a report whose formatting list holds a
`paragraph_style_change` record, and that record carries no `change_type`
key at all. -/
theorem spec_C3_counterexample :
    detect_changes (fun _ _ => (1 : ℚ)) styleDocA styleDocB =
      Except.ok
        { text_changes := []
          formatting_changes := [Change.paraStyleChange 0
            (PyVal.str (str "Normal")) (PyVal.str (str "Heading 1"))]
          table_changes := []
          image_changes := []
          annotation_changes := []
          structural_changes := []
          summary := ⟨1, 0, 1, 0, 0, 0, 0⟩ } ∧
    changeTypeField (Change.paraStyleChange 0 (PyVal.str (str "Normal"))
      (PyVal.str (str "Heading 1"))) = Option.none := by
  exact ⟨rfl, rfl⟩

end ChangeDetector

namespace ChangeDetector

/-- Claim C4: two documents whose kinds both exist but differ short-circuit
to a report with exactly one structural `document_type_change` record, all
five other category lists empty, and `total_changes = 1`. -/
theorem spec_C4_type_mismatch (sim : Str → Str → ℚ) (o r : Doc) (t1 t2 : Str)
    (h1 : o.dtype = some t1) (h2 : r.dtype = some t2) (hne : t1 ≠ t2) :
    detect_changes sim o r = Except.ok
      { text_changes := []
        formatting_changes := []
        table_changes := []
        image_changes := []
        annotation_changes := []
        structural_changes := [Change.documentTypeChange t1 t2]
        summary := ⟨1, 0, 0, 0, 0, 0, 1⟩ } := by
  unfold detect_changes
  rw [h1, h2]
  dsimp only
  have hx1 : detect_text_changes o r t1 t2 = [] := by
    unfold detect_text_changes
    split_ifs with a b c
    · exact absurd (a.1.trans a.2.symm) hne
    · exact absurd (b.1.trans b.2.symm) hne
    · exact absurd (c.1.trans c.2.symm) hne
    · rfl
  have hx2 : detect_formatting_changes o r t1 t2 = [] := by
    unfold detect_formatting_changes
    split_ifs with a b
    · exact absurd (a.1.trans a.2.symm) hne
    · exact absurd (b.1.trans b.2.symm) hne
    · rfl
  have hx3 : detect_table_changes o r t1 t2 = [] := by
    unfold detect_table_changes
    split_ifs with a
    · exact absurd (a.1.trans a.2.symm) hne
    · rfl
  have hx4 : detect_image_changes sim o r t1 t2 = [] := by
    unfold detect_image_changes
    split_ifs with a
    · exact absurd (a.1.trans a.2.symm) hne
    · rfl
  have hx5 : detect_annotation_changes o r t1 t2 = [] := by
    unfold detect_annotation_changes
    split_ifs with a
    · exact absurd (a.1.trans a.2.symm) hne
    · rfl
  have hx6 : detect_structural_changes o r t1 t2
      = [Change.documentTypeChange t1 t2] := by
    unfold detect_structural_changes
    rw [if_pos hne]
  rw [hx1, hx2, hx3, hx4, hx5, hx6]
  rfl

/-- Witness for C4: a word document against a spreadsheet document. -/
theorem spec_C4_witness :
    detect_changes (fun _ _ => (1 : ℚ)) wordNoopDoc xlsxEmptyDoc = Except.ok
      { text_changes := []
        formatting_changes := []
        table_changes := []
        image_changes := []
        annotation_changes := []
        structural_changes := [Change.documentTypeChange (str "docx") (str "xlsx")]
        summary := ⟨1, 0, 0, 0, 0, 0, 1⟩ } :=
  spec_C4_type_mismatch (fun _ _ => 1) wordNoopDoc xlsxEmptyDoc
    (str "docx") (str "xlsx") rfl rfl (by decide)

end ChangeDetector

namespace ChangeDetector

/-- Claim C5, amended: the word-kind text comparator scans indices
`0 ≤ i < max(len(original), len(revised))` (fourth conjunct); a `deleted`
(resp. `added`) record with the full paragraph text of the side that has it
appears exactly when that side's text at `i` is non-empty and the other
side's is empty — not when the index is merely out of range on the other
side, the frozen claim's condition, refuted by `spec_C5_counterexample` —
and the canonical `modified` record, carrying the token-diff markup,
old/new text and added/deleted term lists, appears exactly when both texts
are non-empty and differ. -/
theorem spec_C5_docx_text (o r : Doc) (i : Nat) :
    (Change.textDeleted (textAt o.paragraphs i) i ∈ detect_docx_text_changes o r ↔
      textAt o.paragraphs i ≠ [] ∧ textAt r.paragraphs i = []) ∧
    (Change.textAdded (textAt r.paragraphs i) i ∈ detect_docx_text_changes o r ↔
      textAt r.paragraphs i ≠ [] ∧ textAt o.paragraphs i = []) ∧
    (Change.textModified
        (word_diff_html (textAt o.paragraphs i) (textAt r.paragraphs i)).1
        (textAt o.paragraphs i) (textAt r.paragraphs i)
        (word_diff_html (textAt o.paragraphs i) (textAt r.paragraphs i)).2.1
        (word_diff_html (textAt o.paragraphs i) (textAt r.paragraphs i)).2.2 i
        ∈ detect_docx_text_changes o r ↔
      textAt o.paragraphs i ≠ [] ∧ textAt r.paragraphs i ≠ [] ∧
        textAt o.paragraphs i ≠ textAt r.paragraphs i) ∧
    (∀ c ∈ detect_docx_text_changes o r,
      ∃ j, j < max o.paragraphs.length r.paragraphs.length ∧
        docxTextIndex c = some j) := by
  refine ⟨⟨?_, ?_⟩, ⟨?_, ?_⟩, ⟨?_, ?_⟩, ?_⟩
  · intro hm
    have hs := docx_text_at_index hm rfl
    have hinv := docxTextStep_del_inv hs
    exact ⟨hinv.2.2.1, hinv.2.2.2⟩
  · rintro ⟨h1, h2⟩
    refine (mem_docx_text o r _).mpr ⟨i, ?_, docxTextStep_del h1 h2⟩
    exact Nat.lt_of_lt_of_le (textAt_lt h1) (Nat.le_max_left _ _)
  · intro hm
    have hs := docx_text_at_index hm rfl
    have hinv := docxTextStep_add_inv hs
    exact ⟨hinv.2.2.1, hinv.2.2.2⟩
  · rintro ⟨h1, h2⟩
    refine (mem_docx_text o r _).mpr ⟨i, ?_, docxTextStep_add h2 h1⟩
    exact Nat.lt_of_lt_of_le (textAt_lt h1) (Nat.le_max_right _ _)
  · intro hm
    have hs := docx_text_at_index hm rfl
    have hinv := docxTextStep_mod_inv hs
    exact ⟨hinv.2.2.2.1, hinv.2.2.2.2.1, hinv.2.2.2.2.2⟩
  · rintro ⟨h1, h2, h3⟩
    refine (mem_docx_text o r _).mpr ⟨i, ?_, docxTextStep_mod h1 h2 h3⟩
    exact Nat.lt_of_lt_of_le (textAt_lt h1) (Nat.le_max_left _ _)
  · intro c hc
    obtain ⟨j, hj, hs⟩ := (mem_docx_text o r c).mp hc
    exact ⟨j, hj, docxTextStep_index hs⟩

/-- Witness for C5: the `added` record of comparing a paragraph-less word
document against one with the single paragraph `"x"`. -/
theorem spec_C5_witness :
    Change.textAdded (textAt c9docO.paragraphs 0) 0
      ∈ detect_docx_text_changes c5docO c9docO :=
  ((spec_C5_docx_text c5docO c9docO 0).2.1).mpr ⟨by decide, by decide⟩

/-- Counterexample to C5 as frozen: index 0 is in range on exactly the
revised side (no original paragraphs, one revised paragraph) yet no record
at all is emitted, because the revised paragraph's text is empty. -/
theorem spec_C5_counterexample :
    c5docO.paragraphs.length = 0 ∧ c5docR.paragraphs.length = 1 ∧
    detect_docx_text_changes c5docO c5docR = [] :=
  ⟨rfl, rfl, rfl⟩

end ChangeDetector

/-- Claim C6: the token-diff round trip.  Concatenating the tokens the
opcodes contribute to the revised side (`equal` spans plus the new side of
`insert` and `replace`) reconstructs `new` exactly, and symmetrically for
the original side; joining all tokenizer output reconstructs each input
string including whitespace. -/
theorem spec_C6_roundtrip (old new : Str) :
    ((Difflib.get_opcodes (tokenize_keep_spaces old) (tokenize_keep_spaces new)).flatMap
        (Difflib.opNewTokens (tokenize_keep_spaces old)
          (tokenize_keep_spaces new))).flatten = new ∧
    ((Difflib.get_opcodes (tokenize_keep_spaces old) (tokenize_keep_spaces new)).flatMap
        (Difflib.opOldTokens (tokenize_keep_spaces old)
          (tokenize_keep_spaces new))).flatten = old ∧
    (tokenize_keep_spaces old).flatten = old ∧
    (tokenize_keep_spaces new).flatten = new := by
  have h := Difflib.get_opcodes_rt (tokenize_keep_spaces old) (tokenize_keep_spaces new)
  refine ⟨?_, ?_, tokenize_flatten old, tokenize_flatten new⟩
  · rw [h.1]
    exact tokenize_flatten new
  · rw [h.2]
    exact tokenize_flatten old

namespace ChangeDetector

/-- Claim C7 (refuted on the unrecognized-kind half): a missing kind key
does raise (the `KeyError` branch of the embedding, first two conjuncts),
but two documents sharing an unrecognized kind (`pptx`) silently produce
the empty report with `total_changes = 0` — precisely the outcome the spec
rules out for contract violations. -/
theorem spec_C7_unrecognized_kind :
    (∀ (sim : Str → Str → ℚ) (r : Doc),
      detect_changes sim emptyDoc r = Except.error ()) ∧
    (∀ (sim : Str → Str → ℚ) (o : Doc),
      detect_changes sim o emptyDoc = Except.error ()) ∧
    (∀ sim : Str → Str → ℚ,
      detect_changes sim pptxDoc pptxDoc = Except.ok emptyReport) := by
  refine ⟨?_, ?_, ?_⟩
  · intro sim r
    unfold detect_changes
    cases h : r.dtype <;> rfl
  · intro sim o
    unfold detect_changes
    cases h : o.dtype <;> rfl
  · intro sim
    rfl

end ChangeDetector

namespace ChangeDetector

/-- Claim C8, amended: sheets are aligned positionally (first conjunct, by
definition a zip); a position-aligned pair whose names differ is skipped
outright (second conjunct — this refutes the frozen claim, see
`spec_C8_counterexample`); and within a name-matching pair, a coordinate
present on both sides with `pyEq`-equal values and at least one differing
formatting attribute yields exactly one `cell_formatting_change` record for
that coordinate, listing every differing attribute
(`compare_cell_formatting` is the attribute-by-attribute difference list
over font name/size/bold/italic/color, fill foreground, and the four
border sides). -/
theorem spec_C8_xlsx_formatting (original revised : Doc) (os rs : Sheet)
    (coord : Str) (oc rc : Cell) :
    (detect_xlsx_formatting_changes original revised
      = (original.sheets.zip revised.sheets).flatMap fun p =>
          xlsxFmtPair p.1 p.2) ∧
    (os.name ≠ rs.name → xlsxFmtPair os rs = []) ∧
    (os.name = rs.name →
     dictGet (sheetCellsDict os) coord = some oc →
     dictGet (sheetCellsDict rs) coord = some rc →
     pyEq oc.value rc.value = true →
     compare_cell_formatting oc rc ≠ [] →
     (xlsxFmtPair os rs).filter (fun c => decide (cellFmtCoord c = some coord))
       = [Change.cellFormattingChange coord os.name
           (compare_cell_formatting oc rc)]) := by
  refine ⟨rfl, ?_, ?_⟩
  · intro hne
    unfold xlsxFmtPair
    rw [if_pos hne]
  · intro hname ho hr hval hfmt
    unfold xlsxFmtPair
    rw [if_neg (by simp [hname])]
    dsimp only
    refine flatMap_filter_single _ _ _ coord ?_ ?_ ?_ ?_
    · unfold sheetCellsDict
      exact buildDict_keys_nodup _
    · intro p hp hne
      dsimp only
      cases hg : dictGet (sheetCellsDict rs) p.1 with
      | none => rfl
      | some rc' =>
        dsimp only
        split_ifs
        · simp [cellFmtCoord, hne]
        · rfl
        · rfl
    · intro p hp hpc
      dsimp only
      have hl : dictGet (sheetCellsDict os) p.1 = some p.2 := by
        unfold sheetCellsDict at hp ⊢
        exact mem_buildDict_lookup hp
      rw [hpc] at hl
      rw [ho] at hl
      injection hl with hl
      rw [hpc, hr]
      dsimp only
      rw [← hl]
      rw [if_pos hval, if_pos hfmt]
      simp [cellFmtCoord]
    · have hmem : (coord, oc) ∈ sheetCellsDict os := dict_lookup_mem _ _ _ ho
      have := List.mem_map_of_mem Prod.fst hmem
      exact this

/-- Witness for C8: name-matching one-cell sheets with equal values `10` and
differing bold flags produce exactly the one record at `A1`. -/
theorem spec_C8_witness :
    (xlsxFmtPair ⟨str "A", [[cellBoldT]]⟩ ⟨str "A", [[cellBoldF]]⟩).filter
        (fun c => decide (cellFmtCoord c = some (str "A1")))
      = [Change.cellFormattingChange (str "A1") (str "A")
          (compare_cell_formatting cellBoldT cellBoldF)] :=
  (spec_C8_xlsx_formatting xlsxSameA xlsxSameB ⟨str "A", [[cellBoldT]]⟩
      ⟨str "A", [[cellBoldF]]⟩ (str "A1") cellBoldT cellBoldF).2.2
    rfl (by decide) (by decide) (by decide) (by decide)

/-- Counterexample to C8 as frozen: a position-aligned sheet pair with
coordinate `A1` on both sides, equal values and a differing bold attribute —
the frozen claim demands exactly one record — produces no record, because
the sheet names differ and the pair is skipped. -/
theorem spec_C8_counterexample :
    xlsxNameA.sheets.zip xlsxNameB.sheets
      = [(⟨str "A", [[cellBoldT]]⟩, ⟨str "B", [[cellBoldF]]⟩)] ∧
    dictGet (sheetCellsDict ⟨str "A", [[cellBoldT]]⟩) (str "A1")
      = some cellBoldT ∧
    dictGet (sheetCellsDict ⟨str "B", [[cellBoldF]]⟩) (str "A1")
      = some cellBoldF ∧
    pyEq cellBoldT.value cellBoldF.value = true ∧
    compare_cell_formatting cellBoldT cellBoldF ≠ [] ∧
    detect_xlsx_formatting_changes xlsxNameA xlsxNameB = [] := by
  refine ⟨rfl, rfl, rfl, by decide, by decide, rfl⟩

end ChangeDetector

namespace ChangeDetector

/-- Claim C9: empty paragraph text acts as absence in the word-kind text
comparison.  Non-empty versus empty yields the `deleted` record and nothing
else at that index (in particular never a `modified` record); empty versus
non-empty symmetrically yields `added`; and when both sides' text at an
index is empty — including indices that exist only as trailing
empty-text paragraphs of the longer list, since out-of-range text reads as
the empty string — no record with that index is emitted at all. -/
theorem spec_C9_empty_text (o r : Doc) (i : Nat) :
    (textAt o.paragraphs i ≠ [] → textAt r.paragraphs i = [] →
      Change.textDeleted (textAt o.paragraphs i) i
          ∈ detect_docx_text_changes o r ∧
      ∀ c ∈ detect_docx_text_changes o r, docxTextIndex c = some i →
        c = Change.textDeleted (textAt o.paragraphs i) i) ∧
    (textAt o.paragraphs i = [] → textAt r.paragraphs i ≠ [] →
      Change.textAdded (textAt r.paragraphs i) i
          ∈ detect_docx_text_changes o r ∧
      ∀ c ∈ detect_docx_text_changes o r, docxTextIndex c = some i →
        c = Change.textAdded (textAt r.paragraphs i) i) ∧
    (textAt o.paragraphs i = [] → textAt r.paragraphs i = [] →
      ∀ c ∈ detect_docx_text_changes o r, docxTextIndex c ≠ some i) := by
  refine ⟨?_, ?_, ?_⟩
  · intro h1 h2
    constructor
    · refine (mem_docx_text o r _).mpr ⟨i, ?_, docxTextStep_del h1 h2⟩
      exact Nat.lt_of_lt_of_le (textAt_lt h1) (Nat.le_max_left _ _)
    · intro c hc hci
      have hs := docx_text_at_index hc hci
      rw [docxTextStep_del h1 h2] at hs
      injection hs with hs
      exact hs.symm
  · intro h1 h2
    constructor
    · refine (mem_docx_text o r _).mpr ⟨i, ?_, docxTextStep_add h1 h2⟩
      exact Nat.lt_of_lt_of_le (textAt_lt h2) (Nat.le_max_right _ _)
    · intro c hc hci
      have hs := docx_text_at_index hc hci
      rw [docxTextStep_add h1 h2] at hs
      injection hs with hs
      exact hs.symm
  · intro h1 h2 c hc hci
    have hs := docx_text_at_index hc hci
    rw [docxTextStep_none (h1.trans h2.symm)] at hs
    exact Option.noConfusion hs

/-- Witness for C9: a paragraph `"x"` against an empty-text paragraph at
index 0 yields the `deleted` record. -/
theorem spec_C9_witness :
    Change.textDeleted (textAt c9docO.paragraphs 0) 0
      ∈ detect_docx_text_changes c9docO c9docR :=
  (((spec_C9_empty_text c9docO c9docR 0).1) (by decide) (by decide)).1

end ChangeDetector

namespace ChangeDetector

/-- Claim C10: `_norm_floats` maps `None`, and any list containing an entry
`float()` rejects, to `None` (the comprehension's exception is caught — in
the embedding the function is total, returning the `None` that the
`except` branch returns); consequently, for two annotations matched under
one key, a malformed or absent rect, quadpoints or color normalizes to
`None` on both sides and contributes no entry to `changed_fields`. -/
theorem spec_C10_norm_floats :
    (∀ v : Option (List PyNum),
      v = Option.none ∨ (∃ x ∈ v.getD [], x = PyNum.junk) →
        norm_floats v = Option.none) ∧
    (∀ o r : Annot, norm_floats o.rect = Option.none →
      norm_floats r.rect = Option.none → str "rect" ∉ annotDiffs o r) ∧
    (∀ o r : Annot, norm_floats o.quadpoints = Option.none →
      norm_floats r.quadpoints = Option.none →
        str "quadpoints" ∉ annotDiffs o r) ∧
    (∀ o r : Annot, norm_floats o.color = Option.none →
      norm_floats r.color = Option.none → str "color" ∉ annotDiffs o r) := by
  refine ⟨?_, ?_, ?_, ?_⟩
  · rintro v (rfl | ⟨x, hx, rfl⟩)
    · rfl
    · cases v with
      | none => rfl
      | some l =>
        have hall : l.all (fun x => match x with
            | PyNum.num _ => true | PyNum.junk => false) = false := by
          cases h2 : l.all (fun x => match x with
              | PyNum.num _ => true | PyNum.junk => false)
          · rfl
          · exfalso
            have h3 := List.all_eq_true.mp h2 PyNum.junk (by simpa using hx)
            simp at h3
        unfold norm_floats
        dsimp only
        rw [hall]
        simp
  · intro o r ho hr
    unfold annotDiffs
    rw [if_neg (show ¬ norm_floats o.rect ≠ norm_floats r.rect by
      rw [ho, hr]; simp)]
    split_ifs <;> decide
  · intro o r ho hr
    unfold annotDiffs
    rw [if_neg (show ¬ norm_floats o.quadpoints ≠ norm_floats r.quadpoints by
      rw [ho, hr]; simp)]
    split_ifs <;> decide
  · intro o r ho hr
    unfold annotDiffs
    rw [if_neg (show ¬ norm_floats o.color ≠ norm_floats r.color by
      rw [ho, hr]; simp)]
    split_ifs <;> decide

/-- Witness for C10: a list containing the non-convertible entry normalizes
to `None`, and the annotation pair with malformed-versus-absent rect,
quadpoints and color reports none of those three fields as changed. -/
theorem spec_C10_witness :
    norm_floats (some [PyNum.junk]) = Option.none ∧
    str "rect" ∉ annotDiffs annJunk1 annJunk2 ∧
    str "quadpoints" ∉ annotDiffs annJunk1 annJunk2 ∧
    str "color" ∉ annotDiffs annJunk1 annJunk2 :=
  ⟨spec_C10_norm_floats.1 (some [PyNum.junk])
      (Or.inr ⟨PyNum.junk, by decide, rfl⟩),
   spec_C10_norm_floats.2.1 annJunk1 annJunk2 (by decide) (by decide),
   spec_C10_norm_floats.2.2.1 annJunk1 annJunk2 (by decide) (by decide),
   spec_C10_norm_floats.2.2.2 annJunk1 annJunk2 (by decide) (by decide)⟩

end ChangeDetector
